import Mathlib

/-!
Verification of the AI-NEWS feed ingestion pipeline (src/news.py, src/bot.py).

The Python code is shallowly embedded: strings are Lean `String`s manipulated
through `List Char` helpers that mirror Python's `str` primitives on the ASCII
fragment (Python's `str.lower`, `str.strip`, `str.split`, `in`, `startswith`,
`endswith`, `str.replace`); `urllib.parse` functions (`urlparse`, `urlunparse`,
`parse_qsl`, `urlencode`, `quote_plus`, `unquote_plus`) are modelled after the
CPython implementations on the same fragment (percent escapes are decoded
byte-per-byte, which agrees with CPython for ASCII data).  Network calls
(`requests.get`, redirect resolution, article-page fetching) are modelled as
oracles supplied in an `Env` structure; everything downstream of the oracles
follows `NewsFetcher.fetch` line by line.
-/

namespace AiNews

/-! ### Python string primitives (ASCII scope) -/

/-- Python `str.isspace` on the ASCII whitespace characters. -/
def pyIsSpace (c : Char) : Bool :=
  c = ' ' || c = '\t' || c = '\n' || c = '\r' || c = '\x0b' || c = '\x0c'

/-- Python `str.isalnum` (ASCII scope of the model). -/
def pyIsAlnum (c : Char) : Bool := c.isAlpha || c.isDigit

/-- Python `str.lower` on one character (ASCII scope of the model). -/
def pyLowerChar (c : Char) : Char :=
  if 'A' ≤ c && c ≤ 'Z' then Char.ofNat (c.toNat + 32) else c

def lowerL (l : List Char) : List Char := l.map pyLowerChar

/-- Python `str.lower` (ASCII scope of the model). -/
def pyLower (s : String) : String := ⟨lowerL s.data⟩

/-- `prefL pat l`: `pat` is a prefix of `l` (Python `startswith`). -/
def prefL : List Char → List Char → Bool
  | [], _ => true
  | _ :: _, [] => false
  | p :: ps, x :: xs => p = x && prefL ps xs

/-- `subL pat l`: `pat` occurs as a contiguous substring of `l` (Python `in`). -/
def subL (pat : List Char) : List Char → Bool
  | [] => prefL pat []
  | x :: xs => prefL pat (x :: xs) || subL pat xs

/-- `sufL pat l`: `pat` is a suffix of `l` (Python `endswith`). -/
def sufL (pat l : List Char) : Bool := prefL pat.reverse l.reverse

def strStartsWith (s pat : String) : Bool := prefL pat.data s.data
def strEndsWith (s pat : String) : Bool := sufL pat.data s.data
def hasSubstrS (pat s : String) : Bool := subL pat.data s.data

/-- Python `str.strip()` (whitespace from both ends). -/
def stripWsL (l : List Char) : List Char :=
  ((l.dropWhile pyIsSpace).reverse.dropWhile pyIsSpace).reverse

def stripWs (s : String) : String := ⟨stripWsL s.data⟩

/-- One step of the right fold computing Python `str.split()`: a whitespace
character opens a (collapsed) word boundary, any other character extends the
current word. -/
def splitWsStep (c : Char) (acc : List (List Char)) : List (List Char) :=
  if pyIsSpace c then
    match acc with
    | [] :: _ => acc
    | _ => [] :: acc
  else
    match acc with
    | [] => [[c]]
    | w :: rest => (c :: w) :: rest

/-- Drop the leading empty word produced by leading whitespace. -/
def dropLead : List (List Char) → List (List Char)
  | [] :: rest => rest
  | r => r

/-- Python `str.split()` with no argument: split on whitespace runs, no
empties (a leading empty word from leading whitespace is dropped at the
end). -/
def splitWsL (l : List Char) : List (List Char) :=
  match l.foldr splitWsStep [] with
  | [] :: rest => rest
  | r => r

/-- Python `" ".join(words)`. -/
def joinSpaceL : List (List Char) → List Char
  | [] => []
  | [w] => w
  | w :: ws => w ++ ' ' :: joinSpaceL ws

/-- Split a list at the first occurrence of `c`; `none` when `c` is absent. -/
def breakAt (c : Char) : List Char → Option (List Char × List Char)
  | [] => none
  | x :: xs =>
    if x = c then some ([], xs)
    else match breakAt c xs with
      | none => none
      | some (a, b) => some (x :: a, b)

/-- Python `str.split(sep)` for a single-character separator (keeps
empties). -/
def splitAllAt (c : Char) (l : List Char) : List (List Char) :=
  l.foldr (fun x acc =>
    if x = c then [] :: acc
    else match acc with
      | [] => [[x]]
      | a :: rest => (x :: a) :: rest) [[]]

/-! ### `urllib.parse` model (`urlparse` / `urlunparse`) -/

/-- Result of Python's `urllib.parse.urlparse` (a 6-tuple). -/
structure UrlParts where
  scheme : String
  netloc : String
  path : String
  params : String
  query : String
  fragment : String
  deriving Repr, DecidableEq

/-- Characters CPython accepts inside a URL scheme. -/
def schemeChar (c : Char) : Bool := c.isAlpha || c.isDigit || c = '+' || c = '-' || c = '.'

def urlDelim (c : Char) : Bool := c = '/' || c = '?' || c = '#'

/-- CPython `_splitparams`: split `path;params` at the first `;` of the last
path segment. -/
def splitparamsL (l : List Char) : List Char × List Char :=
  if '/' ∈ l then
    match breakAt '/' l.reverse with
    | some (revSeg, revBefore) =>
      match breakAt ';' revSeg.reverse with
      | none => (l, [])
      | some (s1, s2) => (revBefore.reverse ++ '/' :: s1, s2)
    | none => (l, [])
  else
    match breakAt ';' l with
    | none => (l, [])
    | some (a, b) => (a, b)

/-- Model of CPython `urllib.parse.urlparse` (tab/CR/LF removal, scheme,
netloc, fragment, query, params — in CPython's order). -/
def urlparse (url : String) : UrlParts :=
  let l := url.data.filter (fun c => !(c = '\t' || c = '\r' || c = '\n'))
  let schemeRest : List Char × List Char :=
    match breakAt ':' l with
    | some (pre, post) =>
      match pre with
      | [] => ([], l)
      | p0 :: _ => if p0.isAlpha && pre.all schemeChar then (lowerL pre, post) else ([], l)
    | none => ([], l)
  let netlocRest : List Char × List Char :=
    match schemeRest.2 with
    | '/' :: '/' :: r => (r.takeWhile (fun c => !urlDelim c), r.dropWhile (fun c => !urlDelim c))
    | r => ([], r)
  let fragSplit : List Char × List Char :=
    match breakAt '#' netlocRest.2 with
    | some (a, b) => (a, b)
    | none => (netlocRest.2, [])
  let querySplit : List Char × List Char :=
    match breakAt '?' fragSplit.1 with
    | some (a, b) => (a, b)
    | none => (fragSplit.1, [])
  let pathParams : List Char × List Char :=
    if ';' ∈ querySplit.1 then splitparamsL querySplit.1 else (querySplit.1, [])
  ⟨⟨schemeRest.1⟩, ⟨netlocRest.1⟩, ⟨pathParams.1⟩, ⟨pathParams.2⟩,
    ⟨querySplit.2⟩, ⟨fragSplit.2⟩⟩

/-- Model of CPython `urllib.parse.urlunparse` (via `urlunsplit`). -/
def urlunparse (p : UrlParts) : String :=
  let url0 := p.path.data ++ (if p.params.data ≠ [] then ';' :: p.params.data else [])
  let url1 :=
    if p.netloc.data ≠ [] || prefL ['/', '/'] url0 then
      '/' :: '/' :: (p.netloc.data ++
        (if url0 ≠ [] && !prefL ['/'] url0 then '/' :: url0 else url0))
    else url0
  let url2 := if p.scheme.data ≠ [] then p.scheme.data ++ ':' :: url1 else url1
  let url3 := if p.query.data ≠ [] then url2 ++ '?' :: p.query.data else url2
  let url4 := if p.fragment.data ≠ [] then url3 ++ '#' :: p.fragment.data else url3
  ⟨url4⟩

/-! ### `quote_plus` / `unquote_plus` / `parse_qsl` / `urlencode` model -/

/-- Uppercase hex digit for `n < 16`. -/
def hexDigit (n : Nat) : Char :=
  if n < 10 then Char.ofNat (48 + n) else Char.ofNat (55 + n)

/-- UTF-8 bytes of a character (as `Nat`s). -/
def utf8Bytes (c : Char) : List Nat :=
  let n := c.toNat
  if n < 0x80 then [n]
  else if n < 0x800 then [0xC0 + n / 64, 0x80 + n % 64]
  else if n < 0x10000 then [0xE0 + n / 4096, 0x80 + (n / 64) % 64, 0x80 + n % 64]
  else [0xF0 + n / 262144, 0x80 + (n / 4096) % 64, 0x80 + (n / 64) % 64, 0x80 + n % 64]

/-- Characters `urllib.parse.quote` never escapes (`ALWAYS_SAFE`, with
`quote_plus`'s empty `safe` set). -/
def quoteSafeChar (c : Char) : Bool :=
  c.isAlpha || c.isDigit || c = '_' || c = '.' || c = '-' || c = '~'

def quoteCharPlus (c : Char) : List Char :=
  if c = ' ' then ['+']
  else if quoteSafeChar c then [c]
  else (utf8Bytes c).foldr (fun b acc => '%' :: hexDigit (b / 16) :: hexDigit (b % 16) :: acc) []

/-- Python `urllib.parse.quote_plus`. -/
def quotePlusL : List Char → List Char
  | [] => []
  | c :: cs => quoteCharPlus c ++ quotePlusL cs

def hexVal (c : Char) : Option Nat :=
  if '0' ≤ c && c ≤ '9' then some (c.toNat - 48)
  else if 'A' ≤ c && c ≤ 'F' then some (c.toNat - 55)
  else if 'a' ≤ c && c ≤ 'f' then some (c.toNat - 87)
  else none

/-- Python `urllib.parse.unquote_plus`: `+` becomes a space, `%XX` is decoded
(byte-per-byte in this model; agrees with CPython on ASCII escapes).
Invalid escapes are kept verbatim, as in CPython. -/
def unquotePlusL : List Char → List Char
  | [] => []
  | '+' :: rest => ' ' :: unquotePlusL rest
  | '%' :: a :: b :: rest =>
    match hexVal a, hexVal b with
    | some x, some y => Char.ofNat (16 * x + y) :: unquotePlusL rest
    | _, _ => '%' :: unquotePlusL (a :: b :: rest)
  | c :: rest => c :: unquotePlusL rest

/-- One `name=value` field of `parse_qsl` (pairs with a blank value are
dropped unless `keepBlank`). -/
def qslField (keepBlank : Bool) (field : List Char) : Option (List Char × List Char) :=
  if field = [] then none
  else match breakAt '=' field with
    | none => if keepBlank then some (unquotePlusL field, []) else none
    | some (n, v) =>
      if v ≠ [] || keepBlank then some (unquotePlusL n, unquotePlusL v) else none

/-- Python `urllib.parse.parse_qsl` with separator `&`. -/
def parseQslL (keepBlank : Bool) (qs : List Char) : List (List Char × List Char) :=
  (splitAllAt '&' qs).filterMap (qslField keepBlank)

/-- Collapse `parse_qsl` pairs into the insertion-ordered dict built by
`parse_qs`, keeping for each key its position of first occurrence and its
first value (the code only ever uses `v[0]`). -/
def qsFirstGo (seen : List (List Char)) :
    List (List Char × List Char) → List (List Char × List Char)
  | [] => []
  | (k, v) :: rest =>
    if k ∈ seen then qsFirstGo seen rest
    else (k, v) :: qsFirstGo (k :: seen) rest

def qsFirstL (ps : List (List Char × List Char)) : List (List Char × List Char) :=
  qsFirstGo [] ps

/-- Python `urllib.parse.urlencode` (with `doseq=False`) applied to the
first-value dict. -/
def urlencodeL : List (List Char × List Char) → List Char
  | [] => []
  | [(k, v)] => quotePlusL k ++ '=' :: quotePlusL v
  | (k, v) :: rest => quotePlusL k ++ '=' :: quotePlusL v ++ '&' :: urlencodeL rest

/-! ### `NewsFetcher._canonicalize_url` (src/news.py lines 433-458) -/

/-- Python `str.replace(pat, rep)` for a nonempty pattern: replace every
occurrence, scanning left to right, resuming after each match.  Structured
with a fuel argument (initialised to the list length, which bounds the
number of steps) so that the kernel can evaluate it. -/
def replaceGo (pat rep : List Char) : Nat → List Char → List Char
  | _, [] => []
  | 0, l => l
  | fuel + 1, x :: xs =>
    if prefL pat (x :: xs) && pat ≠ [] then
      rep ++ replaceGo pat rep fuel (xs.drop (pat.length - 1))
    else x :: replaceGo pat rep fuel xs

def replaceL (pat rep l : List Char) : List Char := replaceGo pat rep l.length l

/-- Python `path.replace("/amp/", "/")` specialised to its pattern, by direct
structural recursion (each match consumes the five matched characters and
scanning resumes after the inserted `/`). -/
def replaceAmpL : List Char → List Char
  | '/' :: 'a' :: 'm' :: 'p' :: '/' :: rest => '/' :: replaceAmpL rest
  | c :: rest => c :: replaceAmpL rest
  | [] => []

/-- The tracking-parameter denylist of `_canonicalize_url`. -/
def blockedParamsL : List (List Char) :=
  (["utm_source", "utm_medium", "utm_campaign", "utm_term", "utm_content", "utm_id",
    "gclid", "fbclid", "mc_cid", "mc_eid", "igshid", "ref", "ref_src", "ref_url",
    "ncid", "spm"] : List String).map String.data

/-- The query rewrite of `_canonicalize_url`: `parse_qs` (blank values
dropped), remove denylisted keys, re-encode first values. -/
def canonQueryL (q : List Char) : List Char :=
  urlencodeL ((qsFirstL (parseQslL false q)).filter (fun p => decide (p.1 ∉ blockedParamsL)))

/-- The `/amp` rewrite of `_canonicalize_url`: strip a trailing `/amp`, then
replace `/amp/` segments. -/
def ampStripL (p0 : List Char) : List Char :=
  let p1 := if sufL "/amp".data p0 then p0.take (p0.length - 4) else p0
  if subL "/amp/".data p1 then replaceAmpL p1 else p1

/-- Python `path.rstrip("/")`. -/
def rstripSlashL (l : List Char) : List Char :=
  (l.reverse.dropWhile (fun c => c = '/')).reverse

/-- The full path rewrite of `_canonicalize_url`: `/amp` removal followed by
the trailing-slash strip (root `/` excluded). -/
def canonPathL (p : List Char) : List Char :=
  let p1 := ampStripL p
  if sufL "/".data p1 && decide (1 < p1.length) then rstripSlashL p1 else p1

/-- The component transformation of `_canonicalize_url` between `urlparse`
and `urlunparse`: drop fragment, lower-case host, filter tracking params,
rewrite `/amp`, strip the trailing slash. -/
def canonParts (o : UrlParts) : UrlParts :=
  { scheme := o.scheme
    netloc := pyLower o.netloc
    path := ⟨canonPathL o.path.data⟩
    params := o.params
    query := ⟨canonQueryL o.query.data⟩
    fragment := "" }

/-- `NewsFetcher._canonicalize_url` (the `except` branch returning the raw URL
is unreachable in this total model). -/
def canonicalize_url (url : String) : String := urlunparse (canonParts (urlparse url))

/-! ### Title keys (`NewsFetcher._title_key`, src/news.py 460-466 and
`bot.title_key`, src/bot.py 269-275) -/

/-- `NewsFetcher._title_key`: lower-case, strip, keep only alphanumerics and
whitespace, collapse whitespace runs with single spaces. -/
def news_title_key (title : String) : String :=
  let s := stripWsL (lowerL title.data)
  let reduced := s.filter (fun ch => pyIsAlnum ch || pyIsSpace ch)
  ⟨joinSpaceL (splitWsL reduced)⟩

/-- `bot.title_key`: identical to `NewsFetcher._title_key` except for the
`(title or "")` guard. -/
def bot_title_key (title : String) : String :=
  let t := if title = "" then "" else title
  let s := stripWsL (lowerL t.data)
  let reduced := s.filter (fun ch => pyIsAlnum ch || pyIsSpace ch)
  ⟨joinSpaceL (splitWsL reduced)⟩

/-- Modelled from the spec: "TitleKey: derived from a title by lower-casing,
stripping all non-alphanumeric/non-space characters, and collapsing
whitespace" — stated directly, without the implementations' initial
`strip()`. -/
def specTitleNorm (t : String) : String :=
  ⟨joinSpaceL (splitWsL ((lowerL t.data).filter (fun c => pyIsAlnum c || pyIsSpace c)))⟩

/-! ### `NewsFetcher._upgrade_image_url` (src/news.py lines 24-64) -/

/-- Match `-(\d{2,4})x(\d{2,4})(\.[a-zA-Z]{3,4})` at the end of the string:
the digit runs and extension are forced, so the regex backtracking is
deterministic here.  Returns group 3 (the extension). -/
def wpMatchAt (l : List Char) : Option (List Char) :=
  match l with
  | '-' :: rest =>
    let d1 := rest.takeWhile Char.isDigit
    let r1 := rest.dropWhile Char.isDigit
    if 2 ≤ d1.length && d1.length ≤ 4 then
      match r1 with
      | 'x' :: r2 =>
        let d2 := r2.takeWhile Char.isDigit
        let r3 := r2.dropWhile Char.isDigit
        if 2 ≤ d2.length && d2.length ≤ 4 then
          match r3 with
          | '.' :: ext =>
            if (ext.length = 3 || ext.length = 4) && ext.all Char.isAlpha then
              some ('.' :: ext)
            else none
          | _ => none
        else none
      | _ => none
    else none
  | _ => none

/-- `re.search` for the WordPress size-suffix pattern: leftmost start that
matches through to the end of the path.  Returns the part before the match
and the extension. -/
def wpSearch : List Char → Option (List Char × List Char)
  | [] => none
  | c :: cs =>
    match wpMatchAt (c :: cs) with
    | some ext => some ([], ext)
    | none =>
      match wpSearch cs with
      | none => none
      | some (pre, e) => some (c :: pre, e)

/-- The WordPress rewrite: `path[:m.start()] + extension` when the size
suffix matches. -/
def wpStrip (p : List Char) : List Char :=
  match wpSearch p with
  | some (pre, ext) => pre ++ ext
  | none => p

/-- `re.sub(r"/upload/[^/]+/", "/upload/c_limit,w_1600/", path)`: the greedy
`[^/]+` run is forced to the maximal slash-free run (which must be followed
by a `/`), and scanning resumes after each replacement.  `(c :: cs).drop 8`
past the matched `"/upload/"` is written `cs.drop 7`; the dropWhile result
being nonempty encodes the required closing `/`.  Fuelled (by the list
length) for kernel evaluability. -/
def cloudGo : Nat → List Char → List Char
  | _, [] => []
  | 0, l => l
  | fuel + 1, c :: cs =>
    if prefL "/upload/".data (c :: cs) &&
        (cs.drop 7).takeWhile (fun d => d ≠ '/') ≠ [] &&
        (cs.drop 7).dropWhile (fun d => d ≠ '/') ≠ [] then
      "/upload/c_limit,w_1600/".data ++ cloudGo fuel (((cs.drop 7).dropWhile (fun d => d ≠ '/')).tail)
    else c :: cloudGo fuel cs

def cloudSub (l : List Char) : List Char := cloudGo l.length l

/-- The `name=orig` rewrite for Twitter/X image URLs (dict value
assignment). -/
def setNameOrig (ps : List (List Char × List Char)) : List (List Char × List Char) :=
  ps.map (fun p => if p.1 = "name".data then (p.1, "orig".data) else p)

/-- `NewsFetcher._upgrade_image_url` on a present string (the `None` guard
lives in `upgradeOpt`). -/
def upgrade_image_url (url : String) : String :=
  if url = "" then url
  else
    let parsed := urlparse url
    let host := lowerL parsed.netloc.data
    let path0 := parsed.path.data
    let query0 := qsFirstL (parseQslL true parsed.query.data)
    let path1 := wpStrip path0
    let query1 :=
      if subL "pbs.twimg.com".data host || subL "x.com".data host then
        (if query0.any (fun p => p.1 = "name".data) then setNameOrig query0 else query0)
      else query0
    let path2 :=
      if subL "ytimg.com".data host && subL "/vi/".data path1 then
        replaceL "/hqdefault.jpg".data "/maxresdefault.jpg".data
          (replaceL "/default.jpg".data "/maxresdefault.jpg".data path1)
      else path1
    let path3 :=
      if subL "/upload/".data path2 &&
          (subL "res.cloudinary.com".data host || subL "cloudinary".data host) then
        cloudSub path2
      else path2
    urlunparse { parsed with path := ⟨path3⟩, query := ⟨urlencodeL query1⟩ }

/-! ### Python truthiness on optional strings -/

/-- Python truthiness of an `Optional[str]`. -/
def truthyO : Option String → Bool
  | none => false
  | some s => s ≠ ""

/-- Python `a or b` on `Optional[str]` values. -/
def pyOrO (a b : Option String) : Option String := if truthyO a then a else b

/-- Python `a or b` on plain strings. -/
def pyOrS (a b : String) : String := if a = "" then b else a

/-- `_upgrade_image_url` lifted to `Optional[str]` (its `if not url` guard). -/
def upgradeOpt : Option String → Option String
  | none => none
  | some s => some (upgrade_image_url s)

/-! ### `NewsFetcher._prefer_article_image` (src/news.py lines 246-253) -/

def prefer_article_image (feed_image meta_image : Option String) : Option String :=
  if truthyO meta_image then
    if !truthyO feed_image then pyOrO (upgradeOpt meta_image) meta_image
    else
      let feed_host := (urlparse (feed_image.getD "")).netloc
      if hasSubstrS "news.google" feed_host || hasSubstrS "gstatic" feed_host then
        pyOrO (upgradeOpt meta_image) meta_image
      else pyOrO (upgradeOpt feed_image) (pyOrO feed_image meta_image)
  else pyOrO (upgradeOpt feed_image) (pyOrO feed_image meta_image)

/-! ### Durable dedup store (src/bot.py lines 36-49, 227-241)

The JSON files are modelled by the JSON-array values they hold (a
`List String`); `json.dumps` followed by `json.loads` on a list of strings is
the identity transport, which is what the model's storage type encodes. -/

/-- `bot.save_published`: full rewrite of the sorted published set. -/
def save_published (published : Finset String) : List String :=
  published.sort (· ≤ ·)

/-- `bot.load_published`: read the JSON array back as a set of strings
(non-list or unreadable content degrades to the empty set — not modelled, the
store here always holds a list). -/
def load_published (stored : List String) : Finset String := stored.toFinset

/-- `bot.load_recent_titles`: read the JSON array back as a list of strings. -/
def load_recent_titles (stored : List String) : List String := stored.map (fun x => x)

/-- Python `keys[start:]` for an arbitrary (possibly negative) `start`. -/
def pySliceFrom (l : List String) (s : Int) : List String :=
  if s < 0 then l.drop (l.length - s.natAbs) else l.drop s.toNat

/-- `bot.save_recent_titles`: persists `keys[-max_size:]`. -/
def save_recent_titles (keys : List String) (max_size : Int) : List String :=
  pySliceFrom keys (-max_size)

/-! ### `NewsFetcher.fetch` (src/news.py lines 98-244)

Feed-document parsing (BeautifulSoup) and all network traffic are oracles:
`Env.feedResp u n` is the parsed item list of the `n`-th `requests.get` on
feed URL `u` (`none` models any exception, including `raise_for_status`);
`Env.resolveUrl` is `_resolve_original_url`; `Env.articleMeta` is
`_get_article_meta`.  Everything after the oracles follows the source. -/

/-- A media dict (`{"type": ..., "url": ...}`). -/
structure MediaItem where
  mediaType : String
  url : String
  deriving Repr, DecidableEq

/-- One RSS `item` / Atom `entry` as read by `fetch`: `titleTag` is the
`<title>` text (`none` = tag missing), `linkHref` is
`link_tag.get("href") or link_tag.text` (`none` = tag missing),
`descText` the `summary`/`description` text, `descAnchors` the `href`s of
the `<a href>` tags of the description HTML in document order, `mediaUrl`
the `media:content`/`media:thumbnail` URL, and `enclosureUrl`/`enclosureType`
the enclosure attributes. -/
structure RawItem where
  titleTag : Option String
  linkHref : Option String
  descText : Option String
  descAnchors : List String
  mediaUrl : Option String
  enclosureUrl : Option String
  enclosureType : String
  deriving Repr, DecidableEq

/-- The dict returned by `_get_article_meta`. -/
structure ArticleMeta where
  image : Option String
  description : Option String
  canonicalUrl : Option String
  media : List MediaItem
  deriving Repr, DecidableEq

/-- The network/parsing oracles of one `fetch` cycle. -/
structure Env where
  feedResp : String → Nat → Option (List RawItem)
  resolveUrl : String → Option String
  articleMeta : String → Option ArticleMeta

/-- One output record of `fetch`. -/
structure Article where
  title : String
  link : String
  image_url : Option String
  description : Option String
  media : List MediaItem
  deriving Repr, DecidableEq

def GENERIC_GNEWS_DESC : String := "Comprehensive up-to-date news coverage"

/-- Lines 127-167: title/link extraction, description-link mining, original
URL resolution and the aggregator-host skip.  Returns
`(canon_link, title, feed_desc_text)` for an item that survives, `none` for
a `continue`. -/
def itemPre (resolve : String → Option String) (item : RawItem) :
    Option (String × String × Option String) :=
  if item.titleTag = none || !truthyO item.linkHref then none
  else
    let title := stripWs (pyOrS (item.titleTag.getD "") "")
    let raw_link := stripWs (item.linkHref.getD "")
    let descPair : Option String × Option String :=
      if truthyO item.descText then
        let descTxt := item.descText.getD ""
        let orig := (item.descAnchors.map stripWs).find? (fun h =>
          strStartsWith h "http" && !hasSubstrS "news.google" (urlparse h).netloc)
        let low := pyLower descTxt
        let fdt :=
          if hasSubstrS "google news" low || hasSubstrS (pyLower GENERIC_GNEWS_DESC) low ||
              strStartsWith low "comprehensive up-to-date" then none
          else some descTxt
        (fdt, orig)
      else (none, none)
    let orig_link : Option String :=
      match descPair.2 with
      | some o => some o
      | none =>
        if hasSubstrS "news.google.com" (urlparse raw_link).netloc then resolve raw_link
        else some raw_link
    if !truthyO orig_link ||
        strEndsWith (urlparse (orig_link.getD "")).netloc "news.google.com" then none
    else some (canonicalize_url (orig_link.getD ""), title, descPair.1)

/-- The dedup key an item contributes (line 170's canonical link), `none`
for an item the pre-filters drop. -/
def itemKey (resolve : String → Option String) (item : RawItem) : Option String :=
  (itemPre resolve item).map (fun p => p.1)

/-- Lines 214-230 and 412-428: merge media dicts, dropping blank or
non-photo/video entries and duplicate URLs, preserving order. -/
def dedupMedia (ms : List MediaItem) (seen : List String) : List MediaItem :=
  match ms with
  | [] => []
  | m :: rest =>
    let t := pyLower (stripWs m.mediaType)
    let u := stripWs m.url
    if u = "" || t = "" then dedupMedia rest seen
    else if u ∈ seen then dedupMedia rest seen
    else if !(t = "photo" || t = "video") then dedupMedia rest seen
    else ⟨t, u⟩ :: dedupMedia rest (u :: seen)

/-- Lines 179-242: feed media, article-page metadata, the page-canonical
override of the output link, media merging, image choice and record
assembly.  `canon0` is the dedup-time canonical link of line 170. -/
def buildArticle (meta : String → Option ArticleMeta) (fallback : Option String)
    (item : RawItem) (canon0 title : String) (fdt : Option String) : Article :=
  let feedPair1 : List MediaItem × Option String :=
    if truthyO item.mediaUrl then
      let u := upgrade_image_url (item.mediaUrl.getD "")
      if u ≠ "" then ([⟨"photo", u⟩], some u) else ([], none)
    else ([], none)
  let feedPair2 : List MediaItem × Option String :=
    if truthyO item.enclosureUrl then
      let media_type := pyLower (pyOrS item.enclosureType "")
      let u := upgrade_image_url (item.enclosureUrl.getD "")
      if u ≠ "" && (strStartsWith media_type "image" || strStartsWith media_type "video") then
        if strStartsWith media_type "image" then
          ([⟨"photo", u⟩], if !truthyO feedPair1.2 then some u else feedPair1.2)
        else ([⟨"video", u⟩], feedPair1.2)
      else ([], feedPair1.2)
    else ([], feedPair1.2)
  let feed_media := feedPair1.1 ++ feedPair2.1
  let feed_image := feedPair2.2
  let metaRes := meta canon0
  let canon_link :=
    match metaRes with
    | some m =>
      if truthyO m.canonicalUrl then
        let cand := canonicalize_url (m.canonicalUrl.getD "")
        if cand ≠ "" && strStartsWith cand "http" &&
            !strEndsWith (urlparse cand).netloc "news.google.com" then cand
        else canon0
      else canon0
    | none => canon0
  let meta_image := match metaRes with | some m => m.image | none => none
  let article_desc :=
    match metaRes with
    | some m => if truthyO m.description then m.description else none
    | none => none
  let page_media := match metaRes with | some m => m.media | none => []
  let combined_media := dedupMedia (feed_media ++ page_media) []
  let image_url0 := prefer_article_image feed_image meta_image
  let image_url := if !truthyO image_url0 && truthyO fallback then fallback else image_url0
  { title := title
    link := canon_link
    image_url := image_url
    description := pyOrO article_desc fdt
    media := combined_media }

/-- Intra-cycle dedup state plus the accumulated output; each output article
is paired with its dedup-time canonical link (the `seen_links` key). -/
structure FetchState where
  seenLinks : List String
  seenTitles : List String
  out : List (Article × String)

/-- Lines 124-243: the per-feed item loop, with the `per_feed_limit` break
and the `seen_links`/`seen_titles` dedup (note the title-dedup `continue`
fires only after the link was recorded, as in the source). -/
def processItems (resolve : String → Option String) (meta : String → Option ArticleMeta)
    (fallback : Option String) (perLimit : Nat) :
    List RawItem → Nat → FetchState → FetchState
  | [], _, st => st
  | item :: rest, count, st =>
    if perLimit ≤ count then st
    else
      match itemPre resolve item with
      | none => processItems resolve meta fallback perLimit rest count st
      | some (canon0, title, fdt) =>
        if canon0 ∈ st.seenLinks then
          processItems resolve meta fallback perLimit rest count st
        else
          let st1 : FetchState := ⟨canon0 :: st.seenLinks, st.seenTitles, st.out⟩
          let tk := news_title_key title
          if tk ∈ st1.seenTitles then
            processItems resolve meta fallback perLimit rest count st1
          else
            let st2 : FetchState := ⟨st1.seenLinks, tk :: st1.seenTitles, st1.out⟩
            let art := buildArticle meta fallback item canon0 title fdt
            processItems resolve meta fallback perLimit rest (count + 1)
              ⟨st2.seenLinks, st2.seenTitles, st2.out ++ [(art, canon0)]⟩

/-- Lines 113-119: the feed loop; a failed `requests.get`/`raise_for_status`
(attempt 0 of the oracle — the code performs a single attempt per feed) logs
and continues with the next feed. -/
def fetchFeeds (env : Env) (fallback : Option String) (perLimit : Nat) :
    List String → FetchState → FetchState
  | [], st => st
  | f :: fs, st =>
    match env.feedResp f 0 with
    | none => fetchFeeds env fallback perLimit fs st
    | some items => fetchFeeds env fallback perLimit fs
        (processItems env.resolveUrl env.articleMeta fallback perLimit items 0 st)

/-- `NewsFetcher.fetch`, instrumented: each emitted article is paired with
its dedup-time canonical link. -/
def fetchAux (env : Env) (fallback : Option String) (feedUrls : List String)
    (maxItems : Nat) : List (Article × String) :=
  if feedUrls = [] then []
  else
    let perLimit := max 3 (maxItems / max 1 feedUrls.length)
    (fetchFeeds env fallback perLimit feedUrls ⟨[], [], []⟩).out

/-- `NewsFetcher.fetch`: the returned article list. -/
def fetch (env : Env) (fallback : Option String) (feedUrls : List String)
    (maxItems : Nat) : List Article :=
  (fetchAux env fallback feedUrls maxItems).map Prod.fst

/-! ### Concrete fetch environments used by the claim theorems -/

/-- A feed entry with only a title and a link. -/
def mkItem (t l : String) : RawItem :=
  { titleTag := some t, linkHref := some l, descText := none, descAnchors := [],
    mediaUrl := none, enclosureUrl := none, enclosureType := "" }

/-- One feed whose single item links to the aggregator with a mixed-case
host, article pages unreachable. -/
def envAgg : Env :=
  { feedResp := fun u _ =>
      if u = "https://feeds.example.com/tech" then
        some [mkItem "Mixed case aggregator item" "https://News.Google.com/articles/abc"]
      else none
    resolveUrl := fun _ => none
    articleMeta := fun _ => none }

/-- Feed `a` answers HTTP 503 (an exception) on the first attempt and would
answer 200 with one item on any retry. -/
def envRetry : Env :=
  { feedResp := fun u n =>
      if u = "https://feeds.example.com/a" then
        (if n = 0 then none else some [mkItem "Feed A story" "https://site-a.example.com/story"])
      else none
    resolveUrl := fun _ => none
    articleMeta := fun _ => none }

/-- Feed `a` fails on every attempt, feed `b` succeeds with one item. -/
def envTwoFeeds : Env :=
  { feedResp := fun u _ =>
      if u = "https://feeds.example.com/b" then
        some [mkItem "Feed B story" "https://site-b.example.com/story"]
      else none
    resolveUrl := fun _ => none
    articleMeta := fun _ => none }

/-- One feed with two items on different sites whose article pages both
declare the same `<link rel=canonical>`. -/
def envCommonCanonical : Env :=
  { feedResp := fun u _ =>
      if u = "https://feeds.example.com/tech" then
        some [mkItem "First story" "https://site-a.example.com/x",
              mkItem "Second story" "https://site-b.example.com/y"]
      else none
    resolveUrl := fun _ => none
    articleMeta := fun _ =>
      some { image := none, description := none,
             canonicalUrl := some "https://common-site.example.com/article", media := [] } }

/-- One feed with two items whose links canonicalize to the same dedup key
(they differ only by a `utm_source` tracking parameter). -/
def envSameKey : Env :=
  { feedResp := fun u _ =>
      if u = "https://feeds.example.com/tech" then
        some [mkItem "First story" "https://dup.example.com/story?utm_source=x",
              mkItem "Second story" "https://dup.example.com/story"]
      else none
    resolveUrl := fun _ => none
    articleMeta := fun _ => none }

/-- Two feeds; feed `a`'s item and feed `b`'s first item canonicalize to the
same dedup key, feed `b`'s second item is unrelated. -/
def envCross : Env :=
  { feedResp := fun u _ =>
      if u = "https://feeds.example.com/a" then
        some [mkItem "Feed A first" "https://dup2.example.com/s"]
      else if u = "https://feeds.example.com/b" then
        some [mkItem "Feed B dup" "https://dup2.example.com/s?utm_source=y",
              mkItem "Feed B own" "https://other.example.com/t"]
      else none
    resolveUrl := fun _ => none
    articleMeta := fun _ => none }

/-- Twenty feed URLs. -/
def feedsTwenty : List String :=
  (List.range 20).map (fun i => "https://feed" ++ toString i ++ ".example.com/rss")

/-- Every feed answers with three distinct items, article pages
unreachable. -/
def envTwenty : Env :=
  { feedResp := fun u _ =>
      some ((List.range 3).map (fun j => mkItem (u ++ " item " ++ toString j) (u ++ "/a" ++ toString j)))
    resolveUrl := fun _ => none
    articleMeta := fun _ => none }

/-! ## Claim theorems -/

/-- The dedup invariant of the item loop: emitted dedup keys are distinct
and all recorded in `seen_links`. -/
def KeysInv (st : FetchState) : Prop :=
  (st.out.map Prod.snd).Nodup ∧ ∀ k ∈ st.out.map Prod.snd, k ∈ st.seenLinks

/-- Claim C1 (code bug): `fetch` emits an article whose canonical link is
hosted on `news.google.com`.  The feed item links to
`https://News.Google.com/articles/abc`: the aggregator checks of lines 161
and 165 compare the *raw* mixed-case netloc against the lowercase literal
and both miss, after which `_canonicalize_url` lowercases the host, so the
published record's link host ends in `news.google.com` — the spec's hard
invariant says such an item is always dropped. -/
theorem C1_aggregator_link_emitted :
    (fetch envAgg none ["https://feeds.example.com/tech"] 10).map Article.link =
      ["https://news.google.com/articles/abc"] ∧
    strEndsWith (urlparse "https://news.google.com/articles/abc").netloc "news.google.com" = true :=
  ⟨rfl, rfl⟩

/-- Claim C2 counterexample: a feed whose HTTP GET fails on the first
attempt and would succeed on the second contributes *nothing*: the code
performs a single `requests.get` per feed, so the claimed retry does not
exist.  `envRetry`'s oracle answers `none` for attempt 0 and a one-item feed
for every later attempt. -/
theorem C2_counterexample :
    fetch envRetry none ["https://feeds.example.com/a"] 10 = [] ∧
    envRetry.feedResp "https://feeds.example.com/a" 1 =
      some [mkItem "Feed A story" "https://site-a.example.com/story"] :=
  ⟨rfl, rfl⟩

/-- Claim C5 (code bug): with `max_size = 0`, `save_recent_titles` persists
the *entire* list — Python `keys[-0:]` is `keys[0:]` — contradicting both
the claim and the function's own comment ("keep only the most recent
max_size items"). -/
theorem C5_trim_overflow_at_zero :
    save_recent_titles ["a"] 0 = ["a"] ∧ ¬ ((save_recent_titles ["a"] 0).length ≤ 0) := by
  refine ⟨rfl, ?_⟩
  decide

/-- Claim C8: persisting dedup state and reloading it is a round trip —
`load_published ∘ save_published` is the identity on published-link sets,
and `load_recent_titles ∘ save_recent_titles` is the identity on recent-key
lists already within the size bound. -/
theorem C8_roundtrip :
    (∀ s : Finset String, load_published (save_published s) = s) ∧
    (∀ (keys : List String) (m : Int), (keys.length : Int) ≤ m →
      load_recent_titles (save_recent_titles keys m) = keys) := by
  constructor
  · intro s
    exact Finset.sort_toFinset _ s
  · intro keys m h
    unfold load_recent_titles save_recent_titles pySliceFrom
    simp only [List.map_id']
    split
    · rename_i hneg
      have hm : 0 < m := by omega
      have : keys.length - (-m).natAbs = 0 := by omega
      rw [this]
      exact List.drop_zero keys
    · rename_i hpos
      have hm : m = 0 := by omega
      subst hm
      simp

/-- Witness for C8 at a concrete set and list. -/
theorem C8_roundtrip_witness :
    load_published (save_published ({"a", "b"} : Finset String)) = {"a", "b"} ∧
    load_recent_titles (save_recent_titles ["x", "y"] 3) = ["x", "y"] :=
  ⟨C8_roundtrip.1 _, C8_roundtrip.2 ["x", "y"] 3 (by decide)⟩

/-- Claim C9 counterexample: with a gstatic-hosted feed image and *no*
page-derived image, `_prefer_article_image` returns the feed-declared image,
not the page-derived one (`None`) — the claim's "returns the page-derived
image when ... the feed image's host contains 'news.google' or 'gstatic'"
fails in this case. -/
theorem C9_counterexample :
    prefer_article_image (some "https://encrypted-tbn0.gstatic.com/img.jpg") none =
      some "https://encrypted-tbn0.gstatic.com/img.jpg" ∧
    (some "https://encrypted-tbn0.gstatic.com/img.jpg" : Option String) ≠ none := by
  refine ⟨rfl, ?_⟩
  decide

/-- Claim C9 amended: the stated preference holds whenever a page-derived
image is present (page image when the feed image is absent or
aggregator-proxy-hosted, feed image otherwise, both possibly
resolution-upgraded); when no page-derived image is present the function
falls back to the feed image even when it is aggregator-hosted. -/
theorem C9_amended (fi mi : Option String) :
    (truthyO mi = true →
      (truthyO fi = false ∨
        hasSubstrS "news.google" (urlparse (fi.getD "")).netloc = true ∨
        hasSubstrS "gstatic" (urlparse (fi.getD "")).netloc = true) →
      prefer_article_image fi mi = pyOrO (upgradeOpt mi) mi) ∧
    (truthyO fi = true →
        hasSubstrS "news.google" (urlparse (fi.getD "")).netloc = false →
        hasSubstrS "gstatic" (urlparse (fi.getD "")).netloc = false →
      prefer_article_image fi mi = pyOrO (upgradeOpt fi) fi) ∧
    (truthyO mi = false →
      prefer_article_image fi mi = pyOrO (upgradeOpt fi) (pyOrO fi mi)) := by
  refine ⟨?_, ?_, ?_⟩
  · intro hm hcase
    unfold prefer_article_image
    rw [hm]
    by_cases hf : truthyO fi = true
    · rcases hcase with hfc | hagg | hagg
      · rw [hf] at hfc; cases hfc
      · simp [hf, hagg]
      · simp [hf, hagg]
    · have hf' : truthyO fi = false := by revert hf; cases truthyO fi <;> simp
      simp [hf']
  · intro hf h1 h2
    unfold prefer_article_image
    have hor : pyOrO fi mi = fi := by unfold pyOrO; rw [hf]; simp
    by_cases hm : truthyO mi = true
    · simp [hm, hf, h1, h2, hor]
    · have hm' : truthyO mi = false := by revert hm; cases truthyO mi <;> simp
      simp [hm', hor]
  · intro hm
    unfold prefer_article_image
    rw [hm]
    simp

/-- Witness for C9 at concrete images: a gstatic feed image loses to a
present page image, and an ordinary publisher feed image wins. -/
theorem C9_amended_witness :
    (truthyO (some "https://pub.example.com/hero.png") = true ∧
      prefer_article_image (some "https://encrypted-tbn0.gstatic.com/img.jpg")
        (some "https://pub.example.com/hero.png") = some "https://pub.example.com/hero.png") ∧
    (truthyO (some "https://cdn.pub.example.com/a.png") = true ∧
      prefer_article_image (some "https://cdn.pub.example.com/a.png")
        (some "https://pub.example.com/hero.png") = some "https://cdn.pub.example.com/a.png") := by
  constructor
  · refine ⟨by decide, ?_⟩
    have h := (C9_amended (some "https://encrypted-tbn0.gstatic.com/img.jpg")
      (some "https://pub.example.com/hero.png")).1 (by decide) (by right; right; decide)
    rw [h]
    rfl
  · refine ⟨by decide, ?_⟩
    have h := (C9_amended (some "https://cdn.pub.example.com/a.png")
      (some "https://pub.example.com/hero.png")).2.1 (by decide) (by decide) (by decide)
    rw [h]
    rfl

/-- Claim C3 counterexample: two items from different sites whose article
pages declare the same `<link rel=canonical>` are *both* emitted with the
same final `link` field — the intra-batch dedup keys on the canonicalized
feed link of line 170, not on the output's `link` field, which line 207
overrides afterwards. -/
theorem C3_counterexample :
    (fetch envCommonCanonical none ["https://feeds.example.com/tech"] 10).map Article.link =
      ["https://common-site.example.com/article", "https://common-site.example.com/article"] ∧
    (fetch envCommonCanonical none ["https://feeds.example.com/tech"] 10).length = 2 :=
  ⟨rfl, rfl⟩

/-! Whitespace lemmas for the title-key functions. -/

theorem splitWsL_eq (l : List Char) :
    splitWsL l = dropLead (l.foldr splitWsStep []) := by
  unfold splitWsL dropLead
  rfl

theorem splitWsStep_space {c : Char} (h : pyIsSpace c = true) (acc : List (List Char)) :
    splitWsStep c acc = match acc with | [] :: _ => acc | _ => [] :: acc := by
  unfold splitWsStep
  rw [h]
  rfl

theorem dropLead_foldr_ws {A : List Char} (hA : ∀ c ∈ A, pyIsSpace c = true)
    (acc : List (List Char)) :
    dropLead (A.foldr splitWsStep acc) = dropLead acc := by
  induction A with
  | nil => rfl
  | cons a A' ih =>
    have ha : pyIsSpace a = true := hA a (List.mem_cons_self _ _)
    have hA' : ∀ c ∈ A', pyIsSpace c = true := fun c hc => hA c (List.mem_cons_of_mem _ hc)
    have ih' := ih hA'
    simp only [List.foldr_cons]
    rw [splitWsStep_space ha]
    cases hr : A'.foldr splitWsStep acc with
    | nil =>
      rw [hr] at ih'
      simpa [dropLead] using ih'
    | cons w rest =>
      rw [hr] at ih'
      cases w with
      | nil => simpa [dropLead] using ih'
      | cons c' w' => simpa [dropLead] using ih'

theorem foldr_ws_init {B : List Char} (hB : ∀ c ∈ B, pyIsSpace c = true) :
    B.foldr splitWsStep [] = if B = [] then [] else [[]] := by
  induction B with
  | nil => rfl
  | cons b B' ih =>
    have hb : pyIsSpace b = true := hB b (List.mem_cons_self _ _)
    have ih' := ih (fun c hc => hB c (List.mem_cons_of_mem _ hc))
    simp only [List.foldr_cons, ih']
    rw [splitWsStep_space hb]
    by_cases hB' : B' = []
    · simp [hB']
    · simp [hB']

theorem foldr_init_ws (x : List Char) :
    x = [] ∨ x.foldr splitWsStep [[]] = x.foldr splitWsStep [] := by
  induction x with
  | nil => left; rfl
  | cons c x' ih =>
    right
    simp only [List.foldr_cons]
    rcases ih with rfl | ih
    · simp only [List.foldr_nil]
      unfold splitWsStep
      by_cases hc : pyIsSpace c = true
      · simp [hc]
      · have hc' : pyIsSpace c = false := by revert hc; cases pyIsSpace c <;> simp
        simp [hc']
    · rw [ih]

theorem splitWs_ws_append {A : List Char} (hA : ∀ c ∈ A, pyIsSpace c = true)
    (x : List Char) : splitWsL (A ++ x) = splitWsL x := by
  rw [splitWsL_eq, splitWsL_eq, List.foldr_append]
  exact dropLead_foldr_ws hA _

theorem splitWs_append_ws {B : List Char} (hB : ∀ c ∈ B, pyIsSpace c = true)
    (x : List Char) : splitWsL (x ++ B) = splitWsL x := by
  rw [splitWsL_eq, splitWsL_eq, List.foldr_append]
  rw [foldr_ws_init hB]
  by_cases hBe : B = []
  · simp [hBe]
  · simp only [hBe, if_false]
    rcases foldr_init_ws x with rfl | heq
    · rfl
    · rw [heq]

/-- The alphanumeric-or-space filter of the title keys. -/
theorem strip_filter_splitWs (l : List Char) :
    splitWsL ((stripWsL l).filter (fun ch => pyIsAlnum ch || pyIsSpace ch)) =
      splitWsL (l.filter (fun ch => pyIsAlnum ch || pyIsSpace ch)) := by
  set pred := fun ch => pyIsAlnum ch || pyIsSpace ch with hpred
  have hpredWs : ∀ c, pyIsSpace c = true → pred c = true := by
    intro c hc
    simp [hpred, hc]
  have hl : l = l.takeWhile pyIsSpace ++ l.dropWhile pyIsSpace :=
    (List.takeWhile_append_dropWhile ..).symm
  have hm : l.dropWhile pyIsSpace =
      stripWsL l ++ ((l.dropWhile pyIsSpace).reverse.takeWhile pyIsSpace).reverse := by
    unfold stripWsL
    conv_lhs => rw [← List.reverse_reverse (l.dropWhile pyIsSpace)]
    conv_lhs => rw [← List.takeWhile_append_dropWhile (p := pyIsSpace)
      (l := (l.dropWhile pyIsSpace).reverse)]
    rw [List.reverse_append]
  have hA : ∀ c ∈ l.takeWhile pyIsSpace, pyIsSpace c = true := by
    intro c hc
    exact List.mem_takeWhile_imp hc
  have hB : ∀ c ∈ ((l.dropWhile pyIsSpace).reverse.takeWhile pyIsSpace).reverse,
      pyIsSpace c = true := by
    intro c hc
    rw [List.mem_reverse] at hc
    exact List.mem_takeWhile_imp hc
  conv_rhs => rw [hl, hm]
  rw [List.filter_append, List.filter_append]
  rw [List.filter_eq_self.mpr (fun c hc => hpredWs c (hA c hc))]
  rw [List.filter_eq_self.mpr (fun c hc => hpredWs c (hB c hc))]
  rw [splitWs_ws_append hA, splitWs_append_ws hB]

theorem news_key_eq_spec (t : String) : news_title_key t = specTitleNorm t := by
  unfold news_title_key specTitleNorm
  exact congrArg (fun r => (⟨joinSpaceL r⟩ : String)) (strip_filter_splitWs (lowerL t.data))

theorem bot_key_eq_news (t : String) : bot_title_key t = news_title_key t := by
  unfold bot_title_key news_title_key
  by_cases h : t = ""
  · subst h; rfl
  · simp [h]

/-- Claim C7: the title-key computation is well defined on the
normalization classes the spec describes — titles identical after
lower-casing, dropping non-alphanumeric/non-space characters and collapsing
whitespace get equal keys, in both implementations, and the two
implementations agree everywhere. -/
theorem C7_title_key_normalization (t1 t2 : String)
    (h : specTitleNorm t1 = specTitleNorm t2) :
    news_title_key t1 = news_title_key t2 ∧
    bot_title_key t1 = bot_title_key t2 ∧
    bot_title_key t1 = news_title_key t1 := by
  refine ⟨?_, ?_, bot_key_eq_news t1⟩
  · rw [news_key_eq_spec, news_key_eq_spec]
    exact h
  · rw [bot_key_eq_news, bot_key_eq_news, news_key_eq_spec, news_key_eq_spec]
    exact h

/-- Witness for C7 at the spec's example pair. -/
theorem C7_title_key_normalization_witness :
    specTitleNorm "AI Breakthrough!!" = specTitleNorm "ai breakthrough" ∧
    news_title_key "AI Breakthrough!!" = news_title_key "ai breakthrough" :=
  ⟨by decide, (C7_title_key_normalization "AI Breakthrough!!" "ai breakthrough" (by decide)).1⟩

/-! Lemmas for canonicalizer idempotence (claims C4/C6). -/

theorem toNat_ofNat_valid (n : Nat) (h : n.isValidChar) : (Char.ofNat n).toNat = n := by
  unfold Char.ofNat
  rw [dif_pos h]
  rfl

theorem pyLowerChar_idem (c : Char) : pyLowerChar (pyLowerChar c) = pyLowerChar c := by
  unfold pyLowerChar
  by_cases h : ('A' ≤ c && c ≤ 'Z') = true
  · rw [if_pos h]
    simp only [Bool.and_eq_true] at h
    have h1 : (65 : Nat) ≤ c.toNat := of_decide_eq_true h.1
    have h2 : c.toNat ≤ (90 : Nat) := of_decide_eq_true h.2
    have hv : (c.toNat + 32).isValidChar := Or.inl (by omega)
    have ht := toNat_ofNat_valid (c.toNat + 32) hv
    have hZ : ¬ (Char.ofNat (c.toNat + 32) ≤ ('Z' : Char)) := by
      intro hle
      have hle' : (Char.ofNat (c.toNat + 32)).toNat ≤ ('Z' : Char).toNat := hle
      have hz90 : ('Z' : Char).toNat = 90 := rfl
      rw [ht, hz90] at hle'
      omega
    rw [if_neg (by simp [hZ])]
  · rw [if_neg h, if_neg h]

theorem lowerL_idem (l : List Char) : lowerL (lowerL l) = lowerL l := by
  unfold lowerL
  rw [List.map_map]
  exact List.map_congr_left (fun c _ => pyLowerChar_idem c)

/-- Safe characters are none of the query metacharacters. -/
theorem quoteSafe_ne {c : Char} (h : quoteSafeChar c = true) :
    c ≠ '&' ∧ c ≠ '=' ∧ c ≠ '%' ∧ c ≠ '+' ∧ c ≠ ' ' := by
  refine ⟨?_, ?_, ?_, ?_, ?_⟩ <;> · intro he; subst he; exact absurd h (by decide)

theorem quoteCharPlus_safe {c : Char} (h : quoteSafeChar c = true) :
    quoteCharPlus c = [c] := by
  obtain ⟨-, -, -, -, hs⟩ := quoteSafe_ne h
  unfold quoteCharPlus
  rw [if_neg hs, if_pos h]

theorem quotePlus_safe {l : List Char} (h : ∀ c ∈ l, quoteSafeChar c = true) :
    quotePlusL l = l := by
  induction l with
  | nil => rfl
  | cons c cs ih =>
    simp only [quotePlusL]
    rw [quoteCharPlus_safe (h c (List.mem_cons_self _ _)),
      ih (fun d hd => h d (List.mem_cons_of_mem _ hd))]
    rfl

theorem unquotePlus_cons_plain {c : Char} (h1 : c ≠ '+') (h2 : c ≠ '%')
    (cs : List Char) : unquotePlusL (c :: cs) = c :: unquotePlusL cs := by
  rw [unquotePlusL.eq_def]
  split
  · rename_i heq; cases heq
  · rename_i heq
    injection heq with hc _
    exact absurd hc h1
  · rename_i heq
    injection heq with hc _
    exact absurd hc h2
  · rename_i x xs heq
    injection heq with hc hcs
    rw [hc, hcs]

theorem unquotePlus_plain {l : List Char} (h : ∀ c ∈ l, c ≠ '%' ∧ c ≠ '+') :
    unquotePlusL l = l := by
  induction l with
  | nil => rfl
  | cons c cs ih =>
    obtain ⟨hp, hpl⟩ := h c (List.mem_cons_self _ _)
    rw [unquotePlus_cons_plain hpl hp, ih (fun d hd => h d (List.mem_cons_of_mem _ hd))]

theorem unquotePlus_ne_nil {l : List Char} (h : l ≠ []) : unquotePlusL l ≠ [] := by
  rw [unquotePlusL.eq_def]
  split
  · exact absurd rfl (by assumption)
  · simp
  · split <;> simp
  · simp

theorem splitAllAt_ne_nil (c : Char) (l : List Char) : splitAllAt c l ≠ [] := by
  induction l with
  | nil => simp [splitAllAt]
  | cons d l' ih =>
    simp only [splitAllAt, List.foldr_cons] at *
    split
    · simp
    · split <;> simp

theorem splitAllAt_cons_sep (c : Char) (y : List Char) :
    splitAllAt c (c :: y) = [] :: splitAllAt c y := by
  simp [splitAllAt]

theorem splitAllAt_cons_ne {c d : Char} (hd : d ≠ c) (y : List Char) :
    splitAllAt c (d :: y) =
      match splitAllAt c y with
      | [] => [[d]]
      | a :: rest => (d :: a) :: rest := by
  simp [splitAllAt, hd]

theorem splitAllAt_no_sep {c : Char} {l : List Char} (h : ∀ d ∈ l, d ≠ c) :
    splitAllAt c l = [l] := by
  induction l with
  | nil => rfl
  | cons d l' ih =>
    rw [splitAllAt_cons_ne (h d (List.mem_cons_self _ _))]
    rw [ih (fun e he => h e (List.mem_cons_of_mem _ he))]

theorem splitAllAt_append_sep {c : Char} {x : List Char} (h : ∀ d ∈ x, d ≠ c)
    (y : List Char) : splitAllAt c (x ++ c :: y) = x :: splitAllAt c y := by
  induction x with
  | nil => exact splitAllAt_cons_sep c y
  | cons d x' ih =>
    rw [List.cons_append, splitAllAt_cons_ne (h d (List.mem_cons_self _ _))]
    rw [ih (fun e he => h e (List.mem_cons_of_mem _ he))]

theorem breakAt_append_sep {e : Char} {k : List Char} (h : ∀ d ∈ k, d ≠ e)
    (v : List Char) : breakAt e (k ++ e :: v) = some (k, v) := by
  induction k with
  | nil => simp [breakAt]
  | cons d k' ih =>
    rw [List.cons_append]
    simp only [breakAt]
    rw [if_neg (h d (List.mem_cons_self _ _)), ih (fun x hx => h x (List.mem_cons_of_mem _ hx))]

theorem qslField_pair {k v : List Char} (hkne : ∀ d ∈ k, d ≠ '=')
    (hkplain : ∀ d ∈ k, d ≠ '%' ∧ d ≠ '+') (hvplain : ∀ d ∈ v, d ≠ '%' ∧ d ≠ '+')
    (hvne : v ≠ []) : qslField false (k ++ '=' :: v) = some (k, v) := by
  have hne : k ++ '=' :: v ≠ [] := by
    intro hE
    rcases List.append_eq_nil.mp hE with ⟨-, h2⟩
    cases h2
  unfold qslField
  rw [if_neg hne, breakAt_append_sep hkne]
  show (if (decide (v ≠ []) || false) = true
      then some (unquotePlusL k, unquotePlusL v) else none) = some (k, v)
  rw [if_pos (by simp [hvne])]
  rw [unquotePlus_plain hkplain, unquotePlus_plain hvplain]

/-- Safe pairs with nonempty values survive a `urlencode`/`parse_qsl` round
trip unchanged. -/
theorem urlencode_parse_roundtrip :
    ∀ ps : List (List Char × List Char),
      (∀ p ∈ ps, (∀ c ∈ p.1, quoteSafeChar c = true) ∧
        (∀ c ∈ p.2, quoteSafeChar c = true) ∧ p.2 ≠ []) →
      parseQslL false (urlencodeL ps) = ps := by
  intro ps
  induction ps with
  | nil => intro _; rfl
  | cons p rest ih =>
    intro h
    obtain ⟨k, v⟩ := p
    obtain ⟨hk, hv, hvne⟩ := h (k, v) (List.mem_cons_self _ _)
    have hkq : quotePlusL k = k := quotePlus_safe hk
    have hvq : quotePlusL v = v := quotePlus_safe hv
    have hkne : ∀ d ∈ k, d ≠ '=' := fun d hd => (quoteSafe_ne (hk d hd)).2.1
    have hfieldAmp : ∀ d ∈ k ++ '=' :: v, d ≠ '&' := by
      intro d hd
      rcases List.mem_append.mp hd with hdk | hdv
      · exact (quoteSafe_ne (hk d hdk)).1
      · rcases List.mem_cons.mp hdv with rfl | hdv'
        · decide
        · exact (quoteSafe_ne (hv d hdv')).1
    have hkplain : ∀ d ∈ k, d ≠ '%' ∧ d ≠ '+' := by
      intro d hd
      obtain ⟨-, -, h3, h4, -⟩ := quoteSafe_ne (hk d hd)
      exact ⟨h3, h4⟩
    have hvplain : ∀ d ∈ v, d ≠ '%' ∧ d ≠ '+' := by
      intro d hd
      obtain ⟨-, -, h3, h4, -⟩ := quoteSafe_ne (hv d hd)
      exact ⟨h3, h4⟩
    have hfield := qslField_pair hkne hkplain hvplain hvne
    cases rest with
    | nil =>
      show parseQslL false (urlencodeL [(k, v)]) = [(k, v)]
      unfold urlencodeL
      rw [hkq, hvq]
      unfold parseQslL
      rw [splitAllAt_no_sep hfieldAmp]
      simp only [List.filterMap_cons, List.filterMap_nil, hfield]
    | cons p2 rest2 =>
      have hrest := ih (fun q hq => h q (List.mem_cons_of_mem _ hq))
      show parseQslL false (urlencodeL ((k, v) :: p2 :: rest2)) = (k, v) :: p2 :: rest2
      have hunf : urlencodeL ((k, v) :: p2 :: rest2) =
          (k ++ '=' :: v) ++ '&' :: urlencodeL (p2 :: rest2) := by
        show quotePlusL k ++ '=' :: quotePlusL v ++ '&' :: urlencodeL (p2 :: rest2) = _
        rw [hkq, hvq]
      rw [hunf]
      unfold parseQslL
      rw [splitAllAt_append_sep hfieldAmp]
      simp only [List.filterMap_cons, hfield]
      unfold parseQslL at hrest
      rw [hrest]

theorem qsFirstGo_subset {p : List Char × List Char} :
    ∀ {seen : List (List Char)} {ps : List (List Char × List Char)},
      p ∈ qsFirstGo seen ps → p ∈ ps := by
  intro seen ps
  induction ps generalizing seen with
  | nil => intro h; exact absurd h (by simp [qsFirstGo])
  | cons q rest ih =>
    intro h
    obtain ⟨k, v⟩ := q
    simp only [qsFirstGo] at h
    split at h
    · exact List.mem_cons_of_mem _ (ih h)
    · rcases List.mem_cons.mp h with rfl | h'
      · exact List.mem_cons_self _ _
      · exact List.mem_cons_of_mem _ (ih h')

theorem qsFirstGo_eq_self :
    ∀ {ps : List (List Char × List Char)} {seen : List (List Char)},
      (ps.map Prod.fst).Nodup → (∀ k ∈ ps.map Prod.fst, k ∉ seen) →
      qsFirstGo seen ps = ps := by
  intro ps
  induction ps with
  | nil => intro seen _ _; rfl
  | cons q rest ih =>
    intro seen hnd hni
    obtain ⟨k, v⟩ := q
    simp only [List.map_cons, List.nodup_cons] at hnd
    simp only [qsFirstGo]
    rw [if_neg (hni k (by simp))]
    congr 1
    refine ih hnd.2 ?_
    intro k' hk'
    simp only [List.mem_cons]
    push_neg
    constructor
    · intro he
      subst he
      exact hnd.1 hk'
    · exact hni k' (List.mem_cons_of_mem _ hk')

theorem qsFirstGo_keys_nodup :
    ∀ (ps : List (List Char × List Char)) (seen : List (List Char)),
      ((qsFirstGo seen ps).map Prod.fst).Nodup ∧
      ∀ k ∈ (qsFirstGo seen ps).map Prod.fst, k ∉ seen := by
  intro ps
  induction ps with
  | nil => intro seen; simp [qsFirstGo]
  | cons q rest ih =>
    intro seen
    obtain ⟨k, v⟩ := q
    simp only [qsFirstGo]
    split
    · exact ih seen
    · rename_i hks
      obtain ⟨ihn, ihs⟩ := ih (k :: seen)
      simp only [List.map_cons, List.nodup_cons]
      refine ⟨⟨?_, ihn⟩, ?_⟩
      · intro hmem
        exact ihs k hmem (List.mem_cons_self _ _)
      · intro k' hk'
        rcases List.mem_cons.mp hk' with rfl | h'
        · exact hks
        · intro hs
          exact ihs k' h' (List.mem_cons_of_mem _ hs)

theorem parseQsl_snd_ne_nil {q : List Char} {p : List Char × List Char}
    (h : p ∈ parseQslL false q) : p.2 ≠ [] := by
  unfold parseQslL at h
  obtain ⟨field, -, hf⟩ := List.mem_filterMap.mp h
  unfold qslField at hf
  split at hf
  · exact absurd hf (by simp)
  · split at hf
    · exact absurd hf (by simp)
    · rename_i n w heq
      split at hf
      · rename_i hw
        simp only [Option.some.injEq] at hf
        subst hf
        simp only [Bool.or_false, ne_eq, decide_not] at hw
        have hwne : w ≠ [] := by
          intro hc
          subst hc
          simp at hw
        exact unquotePlus_ne_nil hwne
      · exact absurd hf (by simp)

/-- Second application of the query rewrite is the identity when the
surviving pairs use only unreserved characters. -/
theorem canonQuery_idem (q : List Char)
    (hq : ∀ p ∈ (qsFirstL (parseQslL false q)).filter
        (fun p => decide (p.1 ∉ blockedParamsL)),
      (∀ c ∈ p.1, quoteSafeChar c = true) ∧ (∀ c ∈ p.2, quoteSafeChar c = true)) :
    canonQueryL (canonQueryL q) = canonQueryL q := by
  have hps : ∀ p ∈ (qsFirstL (parseQslL false q)).filter
      (fun p => decide (p.1 ∉ blockedParamsL)),
      (∀ c ∈ p.1, quoteSafeChar c = true) ∧
      (∀ c ∈ p.2, quoteSafeChar c = true) ∧ p.2 ≠ [] := by
    intro p hp
    obtain ⟨h1, h2⟩ := hq p hp
    refine ⟨h1, h2, ?_⟩
    have hmem : p ∈ qsFirstL (parseQslL false q) := List.mem_of_mem_filter hp
    exact parseQsl_snd_ne_nil (qsFirstGo_subset hmem)
  have hnodup : (((qsFirstL (parseQslL false q)).filter
      (fun p => decide (p.1 ∉ blockedParamsL))).map Prod.fst).Nodup := by
    have hsub : List.Sublist
        (((qsFirstL (parseQslL false q)).filter
          (fun p => decide (p.1 ∉ blockedParamsL))).map Prod.fst)
        ((qsFirstL (parseQslL false q)).map Prod.fst) :=
      (List.filter_sublist _).map Prod.fst
    exact (qsFirstGo_keys_nodup (parseQslL false q) []).1.sublist hsub
  have h1 : parseQslL false (canonQueryL q) =
      (qsFirstL (parseQslL false q)).filter (fun p => decide (p.1 ∉ blockedParamsL)) :=
    urlencode_parse_roundtrip _ hps
  have h2 : qsFirstL ((qsFirstL (parseQslL false q)).filter
        (fun p => decide (p.1 ∉ blockedParamsL))) =
      (qsFirstL (parseQslL false q)).filter (fun p => decide (p.1 ∉ blockedParamsL)) :=
    qsFirstGo_eq_self hnodup (by simp)
  have h3 : ((qsFirstL (parseQslL false q)).filter
        (fun p => decide (p.1 ∉ blockedParamsL))).filter
        (fun p => decide (p.1 ∉ blockedParamsL)) =
      (qsFirstL (parseQslL false q)).filter (fun p => decide (p.1 ∉ blockedParamsL)) :=
    List.filter_eq_self.mpr (fun p hp => (List.mem_filter.mp hp).2)
  calc canonQueryL (canonQueryL q)
      = urlencodeL ((qsFirstL (parseQslL false (canonQueryL q))).filter
          (fun p => decide (p.1 ∉ blockedParamsL))) := rfl
    _ = urlencodeL ((qsFirstL ((qsFirstL (parseQslL false q)).filter
          (fun p => decide (p.1 ∉ blockedParamsL)))).filter
          (fun p => decide (p.1 ∉ blockedParamsL))) := by rw [h1]
    _ = urlencodeL (((qsFirstL (parseQslL false q)).filter
          (fun p => decide (p.1 ∉ blockedParamsL))).filter
          (fun p => decide (p.1 ∉ blockedParamsL))) := by rw [h2]
    _ = urlencodeL ((qsFirstL (parseQslL false q)).filter
          (fun p => decide (p.1 ∉ blockedParamsL))) := by rw [h3]
    _ = canonQueryL q := rfl

theorem rstripSlash_no_slash (x : List Char) :
    sufL "/".data (rstripSlashL x) = false := by
  unfold sufL rstripSlashL
  rw [List.reverse_reverse]
  cases hd : x.reverse.dropWhile (fun c => c = '/') with
  | nil => rfl
  | cons d rest =>
    have := List.head_dropWhile_not (fun c : Char => c = '/') (l := x.reverse)
    rw [hd] at this
    simp only [List.head_cons] at this
    show prefL ['/'] (d :: rest) = false
    simp only [prefL]
    have hdne : (('/' : Char) = d) = False := by
      simp only [eq_comm]
      simpa using this (by simp)
    simp [hdne]

theorem ampStrip_noop {p : List Char} (h1 : sufL "/amp".data p = false)
    (h2 : subL "/amp/".data p = false) : ampStripL p = p := by
  unfold ampStripL
  rw [h1]
  simp only [Bool.false_eq_true, if_false]
  rw [h2]
  simp

theorem canonPath_cond_false (p : List Char) :
    (sufL "/".data (canonPathL p) && decide (1 < (canonPathL p).length)) = false := by
  by_cases h : (sufL "/".data (ampStripL p) && decide (1 < (ampStripL p).length)) = true
  · have hc : canonPathL p = rstripSlashL (ampStripL p) := by
      unfold canonPathL
      rw [if_pos h]
    rw [hc, rstripSlash_no_slash]
    rfl
  · have hc : canonPathL p = ampStripL p := by
      unfold canonPathL
      rw [if_neg h]
    rw [hc]
    exact Bool.eq_false_iff.mpr h

theorem canonPath_idem_of_ampfree {p : List Char}
    (h1 : sufL "/amp".data (canonPathL p) = false)
    (h2 : subL "/amp/".data (canonPathL p) = false) :
    canonPathL (canonPathL p) = canonPathL p := by
  have hs : ampStripL (canonPathL p) = canonPathL p := ampStrip_noop h1 h2
  have hdef : canonPathL (canonPathL p) =
      if (sufL "/".data (ampStripL (canonPathL p)) &&
          decide (1 < (ampStripL (canonPathL p)).length)) = true
      then rstripSlashL (ampStripL (canonPathL p)) else ampStripL (canonPathL p) := rfl
  rw [hdef, hs]
  rw [if_neg (by rw [canonPath_cond_false p]; simp)]

/-- `canonParts` is idempotent on components whose canonical path has no
residual `/amp` and whose surviving query pairs are made of unreserved
characters. -/
theorem canonParts_idem (o : UrlParts)
    (hamp1 : sufL "/amp".data (canonPathL o.path.data) = false)
    (hamp2 : subL "/amp/".data (canonPathL o.path.data) = false)
    (hq : ∀ p ∈ (qsFirstL (parseQslL false o.query.data)).filter
        (fun p => decide (p.1 ∉ blockedParamsL)),
      (∀ c ∈ p.1, quoteSafeChar c = true) ∧ (∀ c ∈ p.2, quoteSafeChar c = true)) :
    canonParts (canonParts o) = canonParts o := by
  unfold canonParts
  congr 1
  · exact congrArg String.mk (lowerL_idem o.netloc.data)
  · exact congrArg String.mk (canonPath_idem_of_ampfree hamp1 hamp2)
  · exact congrArg String.mk (canonQuery_idem o.query.data hq)

/-! Substring/suffix lemmas for the `/amp` path rewrites (claim C6). -/

theorem prefL_refl (l : List Char) : prefL l l = true := by
  induction l with
  | nil => rfl
  | cons c cs ih => simp [prefL, ih]

theorem prefL_self_append (t y : List Char) : prefL t (t ++ y) = true := by
  induction t with
  | nil => rfl
  | cons c cs ih => simp [prefL, ih]

theorem prefL_of_append {t s l : List Char} (h : prefL (t ++ s) l = true) :
    prefL t l = true := by
  induction t generalizing l with
  | nil => rfl
  | cons c cs ih =>
    cases l with
    | nil => simp [prefL] at h
    | cons d ds =>
      simp only [List.cons_append, prefL, Bool.and_eq_true] at h ⊢
      exact ⟨h.1, ih h.2⟩

theorem prefL_ext {t x : List Char} (h : prefL t x = true) (y : List Char) :
    prefL t (x ++ y) = true := by
  induction t generalizing x with
  | nil => rfl
  | cons c cs ih =>
    cases x with
    | nil => simp [prefL] at h
    | cons d ds =>
      simp only [prefL, Bool.and_eq_true, List.cons_append] at h ⊢
      exact ⟨h.1, ih h.2⟩

theorem prefL_nil_iff (t : List Char) : prefL t [] = true ↔ t = [] := by
  cases t <;> simp [prefL]

theorem prefL_snoc {pat x : List Char} {c : Char}
    (h : prefL pat (x ++ [c]) = true) : prefL pat x = true ∨ pat = x ++ [c] := by
  induction pat generalizing x with
  | nil => exact Or.inl rfl
  | cons q qs ih =>
    cases x with
    | nil =>
      simp only [List.nil_append, prefL, Bool.and_eq_true] at h
      right
      obtain ⟨h1, h2⟩ := h
      rw [(prefL_nil_iff qs).mp h2]
      simp [of_decide_eq_true h1]
    | cons d ds =>
      simp only [List.cons_append, prefL, Bool.and_eq_true] at h ⊢
      rcases ih h.2 with hl | hr
      · exact Or.inl ⟨h.1, hl⟩
      · right
        rw [hr, of_decide_eq_true h.1]

theorem subL_of_prefL {pat l : List Char} (h : prefL pat l = true) :
    subL pat l = true := by
  cases l with
  | nil => exact h
  | cons c cs => simp [subL, h]

theorem subL_cons_mono {pat l : List Char} (d : Char) (h : subL pat l = true) :
    subL pat (d :: l) = true := by
  cases l with
  | nil =>
    have : pat = [] := (prefL_nil_iff pat).mp h
    subst this
    simp [subL, prefL]
  | cons c cs =>
    simp only [subL, Bool.or_eq_true] at h ⊢
    exact Or.inr h

theorem sufL_cons_ext {pat l : List Char} (d : Char) (h : sufL pat l = true) :
    sufL pat (d :: l) = true := by
  unfold sufL at h ⊢
  rw [List.reverse_cons]
  exact prefL_ext h [d]

theorem subL_of_sufL {pat l : List Char} (h : sufL pat l = true) :
    subL pat l = true := by
  induction l with
  | nil =>
    unfold sufL at h
    have : pat.reverse = [] := (prefL_nil_iff pat.reverse).mp h
    have hp : pat = [] := by simpa using congrArg List.reverse this
    subst hp
    rfl
  | cons d rest ih =>
    unfold sufL at h
    rw [List.reverse_cons] at h
    rcases prefL_snoc h with hl | hr
    · exact subL_cons_mono d (ih hl)
    · have hpat : pat = d :: rest := by
        have := congrArg List.reverse hr
        simpa using this
      subst hpat
      exact subL_of_prefL (prefL_refl _)

theorem subL_cons_elim {c : Char} {pat l : List Char}
    (h : subL (c :: pat) l = true) : subL pat l = true := by
  induction l with
  | nil => simp [subL, prefL] at h
  | cons d rest ih =>
    simp only [subL, Bool.or_eq_true] at h ⊢
    rcases h with h | h
    · simp only [prefL, Bool.and_eq_true] at h
      right
      exact subL_of_prefL h.2
    · right
      exact ih h

theorem subL_mono_pref {pat pat' : List Char}
    (hmono : ∀ m : List Char, prefL pat m = true → prefL pat' m = true)
    {l : List Char} (h : subL pat l = true) : subL pat' l = true := by
  induction l with
  | nil => exact hmono [] h
  | cons d rest ih =>
    simp only [subL, Bool.or_eq_true] at h ⊢
    rcases h with h | h
    · exact Or.inl (hmono _ h)
    · exact Or.inr (ih h)

theorem subL_snoc_elim {pat l : List Char} {c : Char}
    (h : subL (pat ++ [c]) l = true) : subL pat l = true :=
  subL_mono_pref (fun m hm => prefL_of_append hm) h

theorem sufL_snoc_snoc (t l : List Char) (c : Char) :
    sufL (t ++ [c]) (l ++ [c]) = sufL t l := by
  unfold sufL
  rw [List.reverse_append, List.reverse_append]
  simp [prefL]

theorem subL_snoc_cases {pat p : List Char} {c : Char}
    (h : subL pat (p ++ [c]) = true) :
    subL pat p = true ∨ sufL pat (p ++ [c]) = true := by
  induction p with
  | nil =>
    simp only [List.nil_append] at h ⊢
    cases pat with
    | nil => exact Or.inl rfl
    | cons q qs =>
      simp only [subL, Bool.or_eq_true] at h
      rcases h with h | h
      · right
        rcases prefL_snoc (x := []) h with hl | hr
        · have : q :: qs = [] := (prefL_nil_iff _).mp hl
          cases this
        · rw [hr]
          unfold sufL
          exact prefL_refl _
      · have : q :: qs = [] := (prefL_nil_iff _).mp h
        cases this
  | cons d p' ih =>
    simp only [List.cons_append, subL, Bool.or_eq_true] at h
    rcases h with h | h
    · rcases prefL_snoc (x := d :: p') h with hl | hr
      · exact Or.inl (subL_of_prefL hl)
      · right
        rw [hr]
        unfold sufL
        exact prefL_refl _
    · rcases ih h with hl | hr
      · exact Or.inl (subL_cons_mono d hl)
      · exact Or.inr (sufL_cons_ext d hr)

theorem sufL_append_self (t l : List Char) : sufL t (l ++ t) = true := by
  unfold sufL
  rw [List.reverse_append]
  exact prefL_self_append _ _

theorem subL_sandwich (pat x y : List Char) : subL pat (x ++ (pat ++ y)) = true := by
  induction x with
  | nil => exact subL_of_prefL (prefL_self_append _ _)
  | cons d x' ih => exact subL_cons_mono d ih

theorem rstripSlash_snoc (p : List Char) : rstripSlashL (p ++ ['/']) = rstripSlashL p := by
  unfold rstripSlashL
  rw [List.reverse_append]
  rfl

theorem rstripSlash_of_no_slash {p : List Char} (h : sufL "/".data p = false) :
    rstripSlashL p = p := by
  unfold rstripSlashL
  cases hp : p.reverse with
  | nil =>
    have : p = [] := by simpa using congrArg List.reverse hp
    subst this
    rfl
  | cons d rest =>
    unfold sufL at h
    rw [hp] at h
    simp only [List.reverse_cons] at h
    have hd : d ≠ '/' := by
      intro hne
      subst hne
      simp [prefL] at h
    rw [List.dropWhile_cons, if_neg (by simp [hd])]
    rw [← hp, List.reverse_reverse]

theorem ampData : "/amp".data = ['/', 'a', 'm', 'p'] := rfl

theorem ampSlashData : "/amp/".data = ['/', 'a', 'm', 'p', '/'] := rfl

theorem ampChars : "amp".data = ['a', 'm', 'p'] := rfl

theorem prefL_append_of_le {pat u : List Char} (hlen : pat.length ≤ u.length)
    {v : List Char} (h : prefL pat (u ++ v) = true) : prefL pat u = true := by
  induction pat generalizing u with
  | nil => rfl
  | cons q qs ih =>
    cases u with
    | nil => simp at hlen
    | cons d ds =>
      simp only [List.cons_append, prefL, Bool.and_eq_true] at h ⊢
      simp only [List.length_cons, Nat.add_le_add_iff_right] at hlen
      exact ⟨h.1, ih hlen h.2⟩

theorem subL_amp_of_ampslash {l : List Char} (h : subL "/amp/".data l = true) :
    subL "amp".data l = true := by
  rw [ampSlashData] at h
  have h1 : subL ['a', 'm', 'p', '/'] l = true := subL_cons_elim h
  have h2 : subL ['a', 'm', 'p'] l = true :=
    @subL_snoc_elim ['a', 'm', 'p'] l '/' h1
  rw [ampChars]
  exact h2

theorem subL_amp_append_slash {a b : List Char}
    (h : subL "amp".data (a ++ '/' :: b) = true) :
    subL "amp".data a = true ∨ subL "amp".data b = true := by
  rw [ampChars] at h ⊢
  induction a with
  | nil =>
    right
    simp only [List.nil_append, subL, prefL] at h
    simpa using h
  | cons d a' ih =>
    simp only [List.cons_append, subL, Bool.or_eq_true] at h
    rcases h with h | h
    · rcases a' with _ | ⟨e, a''⟩
      · simp [prefL] at h
      · rcases a'' with _ | ⟨f, a'''⟩
        · simp [prefL] at h
        · simp only [prefL, List.cons_append, Bool.and_eq_true, decide_eq_true_eq] at h
          obtain ⟨h1, h2, h3, -⟩ := h
          subst h1
          subst h2
          subst h3
          left
          simp [subL, prefL]
    · rcases ih h with hl | hr
      · exact Or.inl (subL_cons_mono d hl)
      · exact Or.inr hr

theorem sufL_amp_sandwich {a b : List Char} (hb : subL "amp".data b = false) :
    sufL "/amp".data (a ++ '/' :: 'a' :: 'm' :: 'p' :: '/' :: b) = false := by
  by_contra hc
  rw [Bool.not_eq_false] at hc
  unfold sufL at hc
  rw [show "/amp".data.reverse = ['p', 'm', 'a', '/'] from rfl] at hc
  rcases b with _ | ⟨x, _ | ⟨y, _ | ⟨z, _ | ⟨w, b'⟩⟩⟩⟩
  · rw [show (a ++ ['/', 'a', 'm', 'p', '/']).reverse =
      '/' :: 'p' :: 'm' :: 'a' :: '/' :: a.reverse from by simp] at hc
    simp [prefL] at hc
  · rw [show (a ++ '/' :: 'a' :: 'm' :: 'p' :: '/' :: [x]).reverse =
      x :: '/' :: 'p' :: 'm' :: 'a' :: '/' :: a.reverse from by simp] at hc
    simp [prefL] at hc
  · rw [show (a ++ '/' :: 'a' :: 'm' :: 'p' :: '/' :: [x, y]).reverse =
      y :: x :: '/' :: 'p' :: 'm' :: 'a' :: '/' :: a.reverse from by simp] at hc
    simp [prefL] at hc
  · rw [show (a ++ '/' :: 'a' :: 'm' :: 'p' :: '/' :: [x, y, z]).reverse =
      z :: y :: x :: '/' :: 'p' :: 'm' :: 'a' :: '/' :: a.reverse from by simp] at hc
    simp only [prefL, Bool.and_eq_true, decide_eq_true_eq] at hc
    obtain ⟨h1, h2, h3, -⟩ := hc
    subst h1
    subst h2
    subst h3
    simp [ampChars, subL, prefL] at hb
  · have hlen : (['p', 'm', 'a', '/'] : List Char).length ≤
        ((x :: y :: z :: w :: b').reverse).length := by simp
    rw [show (a ++ '/' :: 'a' :: 'm' :: 'p' :: '/' :: x :: y :: z :: w :: b').reverse =
        (x :: y :: z :: w :: b').reverse ++
          ('/' :: 'p' :: 'm' :: 'a' :: '/' :: a.reverse) from by simp] at hc
    have hpref := prefL_append_of_le hlen hc
    have hsuf : sufL "/amp".data (x :: y :: z :: w :: b') = true := by
      unfold sufL
      rw [show "/amp".data.reverse = ['p', 'm', 'a', '/'] from rfl]
      exact hpref
    have hsub0 := subL_of_sufL hsuf
    rw [ampData] at hsub0
    have hsub : subL ['a', 'm', 'p'] (x :: y :: z :: w :: b') = true := subL_cons_elim hsub0
    rw [ampChars] at hb
    rw [hsub] at hb
    cases hb

theorem sufL_amp_after_slash {a b : List Char} (hb : subL "amp".data b = false) :
    sufL "/amp".data (a ++ '/' :: b) = false := by
  by_contra hc
  rw [Bool.not_eq_false] at hc
  unfold sufL at hc
  rw [show "/amp".data.reverse = ['p', 'm', 'a', '/'] from rfl] at hc
  rcases b with _ | ⟨x, _ | ⟨y, _ | ⟨z, _ | ⟨w, b'⟩⟩⟩⟩
  · rw [show (a ++ ['/']).reverse = '/' :: a.reverse from by simp] at hc
    simp [prefL] at hc
  · rw [show (a ++ '/' :: [x]).reverse = x :: '/' :: a.reverse from by simp] at hc
    simp [prefL] at hc
  · rw [show (a ++ '/' :: [x, y]).reverse = y :: x :: '/' :: a.reverse from by simp] at hc
    simp [prefL] at hc
  · rw [show (a ++ '/' :: [x, y, z]).reverse = z :: y :: x :: '/' :: a.reverse
      from by simp] at hc
    simp only [prefL, Bool.and_eq_true, decide_eq_true_eq] at hc
    obtain ⟨h1, h2, h3, -⟩ := hc
    subst h1
    subst h2
    subst h3
    simp [ampChars, subL, prefL] at hb
  · have hlen : (['p', 'm', 'a', '/'] : List Char).length ≤
        ((x :: y :: z :: w :: b').reverse).length := by simp
    rw [show (a ++ '/' :: x :: y :: z :: w :: b').reverse =
        (x :: y :: z :: w :: b').reverse ++ ('/' :: a.reverse) from by simp] at hc
    have hpref := prefL_append_of_le hlen hc
    have hsuf : sufL "/amp".data (x :: y :: z :: w :: b') = true := by
      unfold sufL
      rw [show "/amp".data.reverse = ['p', 'm', 'a', '/'] from rfl]
      exact hpref
    have hsub0 := subL_of_sufL hsuf
    rw [ampData] at hsub0
    have hsub : subL ['a', 'm', 'p'] (x :: y :: z :: w :: b') = true := subL_cons_elim hsub0
    rw [ampChars] at hb
    rw [hsub] at hb
    cases hb

theorem replaceAmp_noop {l : List Char} (h : subL "/amp/".data l = false) :
    replaceAmpL l = l := by
  induction l with
  | nil => rfl
  | cons c rest ih =>
    rw [replaceAmpL.eq_def]
    split
    · rename_i rest' heq
      rw [heq] at h
      have hpre : prefL "/amp/".data ('/' :: 'a' :: 'm' :: 'p' :: '/' :: rest') = true := by
        rw [ampSlashData]
        simp [prefL]
      rw [subL_of_prefL hpre] at h
      cases h
    · rename_i c2 rest2 hnm heq
      injection heq with hc hrest
      subst hc
      subst hrest
      have h' : subL "/amp/".data rest = false := by
        by_contra hc2
        rw [Bool.not_eq_false] at hc2
        rw [subL_cons_mono c hc2] at h
        cases h
      rw [ih h']
    · rename_i heq
      cases heq

theorem replaceAmp_insert {a b : List Char} (ha : subL "amp".data a = false)
    (hb : subL "amp".data b = false) :
    replaceAmpL (a ++ '/' :: 'a' :: 'm' :: 'p' :: '/' :: b) = a ++ '/' :: b := by
  induction a with
  | nil =>
    simp only [List.nil_append]
    have hnb : subL "/amp/".data b = false := by
      by_contra hc
      rw [Bool.not_eq_false] at hc
      rw [subL_amp_of_ampslash hc] at hb
      cases hb
    rw [show replaceAmpL ('/' :: 'a' :: 'm' :: 'p' :: '/' :: b) = '/' :: replaceAmpL b
      from rfl]
    rw [replaceAmp_noop hnb]
  | cons d a' ih =>
    rw [List.cons_append, replaceAmpL.eq_def]
    split
    · rename_i rest' heq
      exfalso
      injection heq with hd htail
      subst hd
      rcases a' with _ | ⟨c1, _ | ⟨c2, _ | ⟨c3, _ | ⟨c4, a5⟩⟩⟩⟩
      · simp at htail
      · simp only [List.cons_append, List.nil_append, List.cons.injEq] at htail
        obtain ⟨-, h2, -⟩ := htail
        cases h2
      · simp only [List.cons_append, List.nil_append, List.cons.injEq] at htail
        obtain ⟨-, -, h3, -⟩ := htail
        cases h3
      · simp only [List.cons_append, List.nil_append, List.cons.injEq] at htail
        obtain ⟨h1, h2, h3, -⟩ := htail
        subst h1
        subst h2
        subst h3
        simp [ampChars, subL, prefL] at ha
      · simp only [List.cons_append, List.cons.injEq] at htail
        obtain ⟨h1, h2, h3, h4, -⟩ := htail
        subst h1
        subst h2
        subst h3
        subst h4
        simp [ampChars, subL, prefL] at ha
    · rename_i c2 rest2 hnm heq
      injection heq with hc hrest
      subst hc
      subst hrest
      have ha' : subL "amp".data a' = false := by
        by_contra hc2
        rw [Bool.not_eq_false] at hc2
        rw [subL_cons_mono d hc2] at ha
        cases ha
      rw [ih ha']
      rfl
    · rename_i heq
      cases heq

/-- Appending `/amp` to a path that does not already end in `/amp` does not
change its canonical form. -/
theorem canonPath_amp_suffix {p : List Char} (h : sufL "/amp".data p = false) :
    canonPathL (p ++ "/amp".data) = canonPathL p := by
  have hstrip : ampStripL (p ++ "/amp".data) = ampStripL p := by
    have hsuf : sufL "/amp".data (p ++ "/amp".data) = true := sufL_append_self _ _
    have htake : (p ++ "/amp".data).take ((p ++ "/amp".data).length - 4) = p := by
      have hlen : (p ++ "/amp".data).length - 4 = p.length := by
        rw [List.length_append]
        simp [ampData]
      rw [hlen]
      exact List.take_left p _
    simp only [ampStripL, hsuf, htake, h, Bool.false_eq_true, if_false, if_true]
  simp only [canonPathL, hstrip]

/-- A single trailing slash on a non-root, `/amp`-free path does not change
its canonical form. -/
theorem canonPath_trailing_slash {p : List Char} (h0 : p ≠ []) (h1 : p ≠ ['/'])
    (h2 : sufL "/amp".data p = false) (h3 : subL "/amp/".data p = false) :
    canonPathL (p ++ ['/']) = canonPathL p := by
  have hsuf : sufL "/amp".data (p ++ ['/']) = false := by
    unfold sufL
    rw [show "/amp".data.reverse = ['p', 'm', 'a', '/'] from rfl, List.reverse_append]
    simp [prefL]
  have hsub : subL "/amp/".data (p ++ ['/']) = false := by
    by_contra hc
    rw [Bool.not_eq_false] at hc
    rcases subL_snoc_cases hc with hl | hr
    · rw [hl] at h3
      cases h3
    · rw [show "/amp/".data = "/amp".data ++ ['/'] from rfl, sufL_snoc_snoc] at hr
      rw [hr] at h2
      cases h2
  have hA1 : ampStripL (p ++ ['/']) = p ++ ['/'] := ampStrip_noop hsuf hsub
  have hA2 : ampStripL p = p := ampStrip_noop h2 h3
  have hcond : (sufL "/".data (p ++ ['/']) && decide (1 < (p ++ ['/']).length)) = true := by
    have hs : sufL "/".data (p ++ ['/']) = true := by
      unfold sufL
      rw [List.reverse_append]
      simp [prefL]
    have hl : 1 < (p ++ ['/']).length := by
      rcases p with _ | ⟨c, p'⟩
      · exact absurd rfl h0
      · simp
    simp only [hs, hl, decide_eq_true_eq, Bool.true_and, decide_eq_true]
  have hL : canonPathL (p ++ ['/']) = rstripSlashL p := by
    simp only [canonPathL, hA1, hcond, if_true]
    exact rstripSlash_snoc p
  by_cases hps : (sufL "/".data p && decide (1 < p.length)) = true
  · have hRp : canonPathL p = rstripSlashL p := by
      simp only [canonPathL, hA2, hps, if_true]
    rw [hL, hRp]
  · have hRp : canonPathL p = p := by
      simp only [canonPathL, hA2]
      rw [if_neg hps]
    rw [hL, hRp]
    by_cases hsl : sufL "/".data p = true
    · exfalso
      have hlen : ¬ (1 < p.length) := fun hl => hps (by simp [hsl, hl])
      rcases p with _ | ⟨c, p'⟩
      · exact h0 rfl
      · rcases p' with _ | ⟨d, p''⟩
        · unfold sufL at hsl
          simp only [List.reverse_cons, List.reverse_nil, List.nil_append,
            prefL, Bool.and_eq_true, decide_eq_true_eq] at hsl
          obtain ⟨hc, -⟩ := hsl
          exact h1 (by rw [← hc])
        · exact hlen (by simp)
    · exact rstripSlash_of_no_slash (Bool.eq_false_iff.mpr hsl)

/-- Collapsing one `/amp/` segment in an otherwise `amp`-free path does not
change its canonical form. -/
theorem canonPath_amp_segment {a b : List Char} (ha : subL "amp".data a = false)
    (hb : subL "amp".data b = false) :
    canonPathL (a ++ '/' :: 'a' :: 'm' :: 'p' :: '/' :: b) = canonPathL (a ++ '/' :: b) := by
  have hs1 : sufL "/amp".data (a ++ '/' :: 'a' :: 'm' :: 'p' :: '/' :: b) = false :=
    sufL_amp_sandwich hb
  have hs2 : subL "/amp/".data (a ++ '/' :: 'a' :: 'm' :: 'p' :: '/' :: b) = true := by
    have hsw := subL_sandwich "/amp/".data a b
    rw [show "/amp/".data ++ b = '/' :: 'a' :: 'm' :: 'p' :: '/' :: b from rfl] at hsw
    exact hsw
  have hstrip1 : ampStripL (a ++ '/' :: 'a' :: 'm' :: 'p' :: '/' :: b) = a ++ '/' :: b := by
    simp only [ampStripL, hs1, hs2, Bool.false_eq_true, if_false, if_true]
    exact replaceAmp_insert ha hb
  have hs3 : sufL "/amp".data (a ++ '/' :: b) = false := sufL_amp_after_slash hb
  have hs4 : subL "/amp/".data (a ++ '/' :: b) = false := by
    by_contra hc
    rw [Bool.not_eq_false] at hc
    have h5 := subL_amp_of_ampslash hc
    rcases subL_amp_append_slash h5 with hl | hr
    · rw [hl] at ha
      cases ha
    · rw [hr] at hb
      cases hb
  have hstrip2 : ampStripL (a ++ '/' :: b) = a ++ '/' :: b := ampStrip_noop hs3 hs4
  simp only [canonPathL, hstrip1, hstrip2]

/-- Claim C4 counterexample: the canonicalizer is *not* idempotent — the
`/amp` suffix strip can expose another `/amp` suffix, so
`https://example.com/amp/amp` canonicalizes to `https://example.com/amp`,
which canonicalizes further to `https://example.com`. -/
theorem C4_counterexample :
    canonicalize_url (canonicalize_url "https://example.com/amp/amp") ≠
      canonicalize_url "https://example.com/amp/amp" ∧
    canonicalize_url "https://example.com/amp/amp" = "https://example.com/amp" ∧
    canonicalize_url "https://example.com/amp" = "https://example.com" := by
  refine ⟨?_, rfl, rfl⟩
  decide

/-- Claim C4 amended: `_canonicalize_url` is idempotent on every URL whose
canonical form survives a `urlparse`/`urlunparse` round trip, whose
canonicalized path retains no `/amp` suffix or `/amp/` segment, and whose
surviving query pairs are made of unreserved characters — but not in
general (see the nested-`/amp` counterexample). -/
theorem C4_amended_idempotent (u : String)
    (h1 : urlparse (urlunparse (canonParts (urlparse u))) = canonParts (urlparse u))
    (h2 : sufL "/amp".data (canonPathL (urlparse u).path.data) = false)
    (h3 : subL "/amp/".data (canonPathL (urlparse u).path.data) = false)
    (h4 : ∀ p ∈ (qsFirstL (parseQslL false (urlparse u).query.data)).filter
        (fun p => decide (p.1 ∉ blockedParamsL)),
      (∀ c ∈ p.1, quoteSafeChar c = true) ∧ (∀ c ∈ p.2, quoteSafeChar c = true)) :
    canonicalize_url (canonicalize_url u) = canonicalize_url u := by
  unfold canonicalize_url
  rw [h1, canonParts_idem (urlparse u) h2 h3 h4]

/-- Witness for C4 at the spec's example URL. -/
theorem C4_amended_idempotent_witness :
    canonicalize_url (canonicalize_url "https://Example.com/a/amp/?utm_source=x&id=5") =
      canonicalize_url "https://Example.com/a/amp/?utm_source=x&id=5" :=
  C4_amended_idempotent "https://Example.com/a/amp/?utm_source=x&id=5"
    (by decide) (by decide) (by decide) (by decide)

theorem processItems_keys_inv (resolve : String → Option String)
    (meta : String → Option ArticleMeta) (fb : Option String) (pl : Nat) :
    ∀ (items : List RawItem) (count : Nat) (st : FetchState),
      KeysInv st → KeysInv (processItems resolve meta fb pl items count st) := by
  intro items
  induction items with
  | nil => intro count st h; exact h
  | cons item rest ih =>
    intro count st h
    by_cases hc : pl ≤ count
    · simp only [processItems, if_pos hc]
      exact h
    · cases hpre : itemPre resolve item with
      | none =>
        simp only [processItems, if_neg hc, hpre]
        exact ih count st h
      | some pre =>
        obtain ⟨canon0, title, fdt⟩ := pre
        simp only [processItems, if_neg hc, hpre]
        by_cases h1 : canon0 ∈ st.seenLinks
        · simp only [if_pos h1]
          exact ih count st h
        · simp only [if_neg h1]
          by_cases h2 : news_title_key title ∈ st.seenTitles
          · simp only [if_pos h2]
            refine ih count _ ⟨h.1, ?_⟩
            intro k hk
            exact List.mem_cons_of_mem _ (h.2 k hk)
          · simp only [if_neg h2]
            refine ih (count + 1) _ ⟨?_, ?_⟩
            · simp only [List.map_append, List.map_cons, List.map_nil]
              rw [List.nodup_append]
              refine ⟨h.1, List.nodup_singleton _, ?_⟩
              intro k hk hk'
              simp only [List.mem_singleton] at hk'
              subst hk'
              exact h1 (h.2 k hk)
            · intro k hk
              simp only [List.map_append, List.map_cons, List.map_nil,
                List.mem_append, List.mem_singleton] at hk
              rcases hk with hk | rfl
              · exact List.mem_cons_of_mem _ (h.2 k hk)
              · exact List.mem_cons_self _ _

theorem fetchFeeds_keys_inv (env : Env) (fb : Option String) (pl : Nat) :
    ∀ (fs : List String) (st : FetchState),
      KeysInv st → KeysInv (fetchFeeds env fb pl fs st) := by
  intro fs
  induction fs with
  | nil => intro st h; exact h
  | cons f fs ih =>
    intro st h
    cases hr : env.feedResp f 0 with
    | none =>
      simp only [fetchFeeds, hr]
      exact ih st h
    | some items =>
      simp only [fetchFeeds, hr]
      exact ih _ (processItems_keys_inv env.resolveUrl env.articleMeta fb pl items 0 st h)

theorem processItems_seen_mono (resolve : String → Option String)
    (meta : String → Option ArticleMeta) (fb : Option String) (pl : Nat) :
    ∀ (items : List RawItem) (count : Nat) (st : FetchState),
      ∀ k ∈ st.seenLinks, k ∈ (processItems resolve meta fb pl items count st).seenLinks := by
  intro items
  induction items with
  | nil => intro count st k hk; exact hk
  | cons item rest ih =>
    intro count st k hk
    by_cases hc : pl ≤ count
    · simp only [processItems, if_pos hc]
      exact hk
    · cases hpre : itemPre resolve item with
      | none =>
        simp only [processItems, if_neg hc, hpre]
        exact ih count st k hk
      | some pre =>
        obtain ⟨canon0, title, fdt⟩ := pre
        simp only [processItems, if_neg hc, hpre]
        by_cases h1 : canon0 ∈ st.seenLinks
        · simp only [if_pos h1]
          exact ih count st k hk
        · simp only [if_neg h1]
          by_cases h2 : news_title_key title ∈ st.seenTitles
          · simp only [if_pos h2]
            exact ih count _ k (List.mem_cons_of_mem _ hk)
          · simp only [if_neg h2]
            exact ih (count + 1) _ k (List.mem_cons_of_mem _ hk)

/-- First-wins provenance of the item loop: every article the loop adds
carries a dedup key that was unseen on entry, and is built from the *first*
item of the list bearing that key. -/
theorem processItems_first_wins (resolve : String → Option String)
    (meta : String → Option ArticleMeta) (fb : Option String) (pl : Nat) :
    ∀ (items : List RawItem) (count : Nat) (st : FetchState),
      ∀ p ∈ (processItems resolve meta fb pl items count st).out,
        p ∈ st.out ∨
        (p.2 ∉ st.seenLinks ∧
          ∃ item, items.find? (fun it => decide (itemKey resolve it = some p.2)) = some item ∧
            ∃ title fdt, itemPre resolve item = some (p.2, title, fdt) ∧
              p.1 = buildArticle meta fb item p.2 title fdt) := by
  intro items
  induction items with
  | nil => intro count st p hp; exact Or.inl hp
  | cons item rest ih =>
    intro count st p hp
    by_cases hc : pl ≤ count
    · simp only [processItems, if_pos hc] at hp
      exact Or.inl hp
    · cases hpre : itemPre resolve item with
      | none =>
        simp only [processItems, if_neg hc, hpre] at hp
        rcases ih count st p hp with h | ⟨hfresh, it0, hfind, hrest⟩
        · exact Or.inl h
        · refine Or.inr ⟨hfresh, it0, ?_, hrest⟩
          rw [List.find?_cons_of_neg]
          · exact hfind
          · simp [itemKey, hpre]
      | some pre =>
        obtain ⟨canon0, title, fdt⟩ := pre
        have hkey : itemKey resolve item = some canon0 := by
          simp [itemKey, hpre]
        simp only [processItems, if_neg hc, hpre] at hp
        by_cases h1 : canon0 ∈ st.seenLinks
        · simp only [if_pos h1] at hp
          rcases ih count st p hp with h | ⟨hfresh, it0, hfind, hrest⟩
          · exact Or.inl h
          · refine Or.inr ⟨hfresh, it0, ?_, hrest⟩
            rw [List.find?_cons_of_neg]
            · exact hfind
            · simp only [hkey, decide_eq_true_eq]
              intro hh
              exact hfresh ((Option.some.inj hh) ▸ h1)
        · simp only [if_neg h1] at hp
          by_cases h2 : news_title_key title ∈ st.seenTitles
          · simp only [if_pos h2] at hp
            rcases ih count _ p hp with h | ⟨hfresh, it0, hfind, hrest⟩
            · exact Or.inl h
            · have hf2 : p.2 ∉ st.seenLinks := fun hh => hfresh (List.mem_cons_of_mem _ hh)
              have hne : canon0 ≠ p.2 := fun hh => hfresh (hh ▸ List.mem_cons_self _ _)
              refine Or.inr ⟨hf2, it0, ?_, hrest⟩
              rw [List.find?_cons_of_neg]
              · exact hfind
              · simp only [hkey, decide_eq_true_eq]
                intro hh
                exact hne (Option.some.inj hh)
          · simp only [if_neg h2] at hp
            rcases ih (count + 1) _ p hp with h | ⟨hfresh, it0, hfind, hrest⟩
            · rcases List.mem_append.mp h with h | h
              · exact Or.inl h
              · simp only [List.mem_singleton] at h
                subst h
                refine Or.inr ⟨h1, item, ?_, title, fdt, hpre, rfl⟩
                rw [List.find?_cons_of_pos]
                simp [hkey]
            · have hf2 : p.2 ∉ st.seenLinks := fun hh => hfresh (List.mem_cons_of_mem _ hh)
              have hne : canon0 ≠ p.2 := fun hh => hfresh (hh ▸ List.mem_cons_self _ _)
              refine Or.inr ⟨hf2, it0, ?_, hrest⟩
              rw [List.find?_cons_of_neg]
              · exact hfind
              · simp only [hkey, decide_eq_true_eq]
                intro hh
                exact hne (Option.some.inj hh)

/-- First-wins provenance of the feed loop: every article a `fetchFeeds` run
adds has a dedup key unseen on entry and is built from the first item (with
that key) of some responding feed of the list. -/
theorem fetchFeeds_first_wins (env : Env) (fb : Option String) (pl : Nat) :
    ∀ (fs : List String) (st : FetchState),
      ∀ p ∈ (fetchFeeds env fb pl fs st).out,
        p ∈ st.out ∨
        (p.2 ∉ st.seenLinks ∧
          ∃ f ∈ fs, ∃ items, env.feedResp f 0 = some items ∧
            ∃ item,
              items.find? (fun it => decide (itemKey env.resolveUrl it = some p.2)) = some item ∧
              ∃ title fdt, itemPre env.resolveUrl item = some (p.2, title, fdt) ∧
                p.1 = buildArticle env.articleMeta fb item p.2 title fdt) := by
  intro fs
  induction fs with
  | nil => intro st p hp; exact Or.inl hp
  | cons f fs ih =>
    intro st p hp
    cases hr : env.feedResp f 0 with
    | none =>
      simp only [fetchFeeds, hr] at hp
      rcases ih st p hp with h | ⟨hfresh, f', hf', hrest⟩
      · exact Or.inl h
      · exact Or.inr ⟨hfresh, f', List.mem_cons_of_mem _ hf', hrest⟩
    | some items =>
      simp only [fetchFeeds, hr] at hp
      rcases ih _ p hp with h | ⟨hfresh, f', hf', hrest⟩
      · rcases processItems_first_wins env.resolveUrl env.articleMeta fb pl items 0 st p h with
          h' | ⟨hfresh', hprov⟩
        · exact Or.inl h'
        · exact Or.inr ⟨hfresh', f, List.mem_cons_self _ _, items, hr, hprov⟩
      · have hf2 : p.2 ∉ st.seenLinks := fun hh =>
          hfresh (processItems_seen_mono env.resolveUrl env.articleMeta fb pl items 0 st p.2 hh)
        exact Or.inr ⟨hf2, f', List.mem_cons_of_mem _ hf', hrest⟩

/-- Claim C3 amended: dedup keys on the canonicalized *feed-derived*
original URL (line 170), computed before the page-canonical override of
line 207.  Within one `fetch` call the emitted dedup keys are pairwise
distinct; every emitted article is built from the *first* item of its feed
that bears its dedup key; a key already recorded in `seen_links` (by an
earlier item or an earlier feed) is never emitted again; concretely, of two
same-key items in one feed only the first survives, and of two same-key
items in different feeds the earlier feed's survives while the later feed's
other items still flow through.  The final `link` fields may coincide when
different dedup keys are overridden to the same page canonical. -/
theorem C3_amended :
    (∀ (env : Env) (fb : Option String) (feeds : List String) (m : Nat),
      ((fetchAux env fb feeds m).map Prod.snd).Nodup ∧
      fetch env fb feeds m = (fetchAux env fb feeds m).map Prod.fst) ∧
    (∀ (env : Env) (fb : Option String) (feeds : List String) (m : Nat),
      ∀ p ∈ fetchAux env fb feeds m,
        ∃ f ∈ feeds, ∃ items, env.feedResp f 0 = some items ∧
          ∃ item,
            items.find? (fun it => decide (itemKey env.resolveUrl it = some p.2)) = some item ∧
            ∃ title fdt, itemPre env.resolveUrl item = some (p.2, title, fdt) ∧
              p.1 = buildArticle env.articleMeta fb item p.2 title fdt) ∧
    (∀ (resolve : String → Option String) (meta : String → Option ArticleMeta)
        (fb : Option String) (pl : Nat) (items : List RawItem) (count : Nat) (st : FetchState),
      ∀ p ∈ (processItems resolve meta fb pl items count st).out,
        p ∈ st.out ∨ p.2 ∉ st.seenLinks) ∧
    (itemKey envSameKey.resolveUrl
        (mkItem "First story" "https://dup.example.com/story?utm_source=x") =
        some "https://dup.example.com/story" ∧
      itemKey envSameKey.resolveUrl (mkItem "Second story" "https://dup.example.com/story") =
        some "https://dup.example.com/story" ∧
      (fetch envSameKey none ["https://feeds.example.com/tech"] 10).map Article.title =
        ["First story"]) ∧
    (itemKey envCross.resolveUrl (mkItem "Feed A first" "https://dup2.example.com/s") =
        some "https://dup2.example.com/s" ∧
      itemKey envCross.resolveUrl (mkItem "Feed B dup" "https://dup2.example.com/s?utm_source=y") =
        some "https://dup2.example.com/s" ∧
      (fetch envCross none ["https://feeds.example.com/a", "https://feeds.example.com/b"] 10).map
          Article.title = ["Feed A first", "Feed B own"]) := by
  refine ⟨?_, ?_, ?_, ⟨rfl, rfl, rfl⟩, ⟨rfl, rfl, rfl⟩⟩
  · intro env fb feeds m
    refine ⟨?_, rfl⟩
    unfold fetchAux
    split
    · simp
    · exact (fetchFeeds_keys_inv env fb _ feeds ⟨[], [], []⟩ ⟨List.nodup_nil, by simp⟩).1
  · intro env fb feeds m p hp
    unfold fetchAux at hp
    split at hp
    · exact absurd hp (List.not_mem_nil p)
    · rcases fetchFeeds_first_wins env fb _ feeds ⟨[], [], []⟩ p hp with h | ⟨-, hprov⟩
      · exact absurd h (List.not_mem_nil p)
      · exact hprov
  · intro resolve meta fb pl items count st p hp
    rcases processItems_first_wins resolve meta fb pl items count st p hp with h | ⟨hf, -⟩
    · exact Or.inl h
    · exact Or.inr hf

/-- `fetchFeeds` only ever consults attempt `0` of the HTTP oracle. -/
theorem fetchFeeds_attempt0 (env : Env) (fb : Option String) (pl : Nat) :
    ∀ (fs : List String) (st : FetchState),
      fetchFeeds { env with feedResp := fun u _ => env.feedResp u 0 } fb pl fs st =
        fetchFeeds env fb pl fs st := by
  intro fs
  induction fs with
  | nil => intro st; rfl
  | cons f fs ih =>
    intro st
    cases h : env.feedResp f 0 with
    | none => simp only [fetchFeeds, h]; exact ih st
    | some items => simp only [fetchFeeds, h]; exact ih _

/-- Claim C2 amended: there is no retry — the output of `fetch` depends only
on attempt `0` of each feed's HTTP oracle; and a feed that fails its single
attempt contributes zero items without aborting the remaining feeds (here
feed `a` always fails while feed `b`'s item is still returned). -/
theorem C2_amended :
    (∀ (env : Env) (fb : Option String) (feeds : List String) (m : Nat),
      fetch { env with feedResp := fun u _ => env.feedResp u 0 } fb feeds m =
        fetch env fb feeds m) ∧
    fetch envTwoFeeds none ["https://feeds.example.com/a", "https://feeds.example.com/b"] 10 =
      [{ title := "Feed B story", link := "https://site-b.example.com/story",
         image_url := none, description := none, media := [] }] := by
  constructor
  · intro env fb feeds m
    unfold fetch fetchAux
    split
    · rfl
    · simp only [fetchFeeds_attempt0]
  · rfl

/-- The per-item loop appends at most `perLimit - count` records. -/
theorem processItems_out_length (resolve : String → Option String)
    (meta : String → Option ArticleMeta) (fb : Option String) (pl : Nat) :
    ∀ (items : List RawItem) (count : Nat) (st : FetchState),
      (processItems resolve meta fb pl items count st).out.length ≤
        st.out.length + (pl - count) := by
  intro items
  induction items with
  | nil => intro count st; simp [processItems]
  | cons item rest ih =>
    intro count st
    by_cases hc : pl ≤ count
    · simp only [processItems, if_pos hc]
      exact Nat.le_add_right _ _
    · cases hpre : itemPre resolve item with
      | none =>
        simp only [processItems, if_neg hc, hpre]
        exact ih count st
      | some pre =>
        obtain ⟨canon0, title, fdt⟩ := pre
        simp only [processItems, if_neg hc, hpre]
        by_cases h1 : canon0 ∈ st.seenLinks
        · simp only [if_pos h1]
          exact ih count st
        · simp only [if_neg h1]
          by_cases h2 : news_title_key title ∈ st.seenTitles
          · simp only [if_pos h2]
            exact ih count _
          · simp only [if_neg h2]
            have h := ih (count + 1)
              ⟨canon0 :: st.seenLinks, news_title_key title :: st.seenTitles,
                st.out ++ [(buildArticle meta fb item canon0 title fdt, canon0)]⟩
            simp only [List.length_append, List.length_cons, List.length_nil] at h
            omega

/-- The feed loop appends at most `perLimit` records per feed. -/
theorem fetchFeeds_out_length (env : Env) (fb : Option String) (pl : Nat) :
    ∀ (fs : List String) (st : FetchState),
      (fetchFeeds env fb pl fs st).out.length ≤ st.out.length + fs.length * pl := by
  intro fs
  induction fs with
  | nil => intro st; simp [fetchFeeds]
  | cons f fs ih =>
    intro st
    cases h : env.feedResp f 0 with
    | none =>
      simp only [fetchFeeds, h]
      have := ih st
      simp only [List.length_cons]
      calc (fetchFeeds env fb pl fs st).out.length ≤ st.out.length + fs.length * pl := this
        _ ≤ st.out.length + (fs.length + 1) * pl := by
            have : fs.length * pl ≤ (fs.length + 1) * pl := Nat.mul_le_mul_right pl (by omega)
            omega
    | some items =>
      simp only [fetchFeeds, h]
      have h1 := ih (processItems env.resolveUrl env.articleMeta fb pl items 0 st)
      have h2 := processItems_out_length env.resolveUrl env.articleMeta fb pl items 0 st
      simp only [Nat.sub_zero] at h2
      simp only [List.length_cons]
      have : (fs.length + 1) * pl = fs.length * pl + pl := by ring
      omega

set_option maxRecDepth 10000 in
/-- Claim C10: `max_items` is not a hard cap — the output length is bounded
by `feedCount * max(3, max_items / feedCount)` (each feed contributing at
most the per-feed share), and with `max_items = 20` and 20 feeds the cycle
really returns 60 articles, three per feed. -/
theorem C10_max_items_soft_cap :
    (∀ (env : Env) (fb : Option String) (feeds : List String) (m : Nat),
      (fetch env fb feeds m).length ≤ feeds.length * max 3 (m / max 1 feeds.length)) ∧
    (fetch envTwenty none feedsTwenty 20).length = 60 ∧
    feedsTwenty.length = 20 ∧ 20 < 60 := by
  refine ⟨?_, rfl, rfl, by omega⟩
  intro env fb feeds m
  unfold fetch fetchAux
  split
  · simp
  · simp only [List.length_map]
    have h := fetchFeeds_out_length env fb (max 3 (m / max 1 feeds.length)) feeds ⟨[], [], []⟩
    simp only [List.length_nil, Nat.zero_add] at h
    exact h

/-- Claim C6 counterexample: `https://example.com/amp/amp` and
`https://example.com/amp` differ only by an `/amp` path suffix (all other
components equal), yet `_canonicalize_url` maps them to different outputs:
the suffix strip runs once, so the first still ends in `/amp` while the
second does not. -/
theorem C6_counterexample :
    (urlparse "https://example.com/amp/amp").path =
      String.mk ((urlparse "https://example.com/amp").path.data ++ "/amp".data) ∧
    (urlparse "https://example.com/amp/amp").scheme =
      (urlparse "https://example.com/amp").scheme ∧
    (urlparse "https://example.com/amp/amp").netloc =
      (urlparse "https://example.com/amp").netloc ∧
    (urlparse "https://example.com/amp/amp").query =
      (urlparse "https://example.com/amp").query ∧
    (urlparse "https://example.com/amp/amp").fragment =
      (urlparse "https://example.com/amp").fragment ∧
    canonicalize_url "https://example.com/amp/amp" = "https://example.com/amp" ∧
    canonicalize_url "https://example.com/amp" = "https://example.com" ∧
    canonicalize_url "https://example.com/amp/amp" ≠
      canonicalize_url "https://example.com/amp" := by
  refine ⟨rfl, rfl, rfl, rfl, rfl, rfl, rfl, ?_⟩
  decide

/-- Claim C6 (amended): the spec's example pair does canonicalize to
`https://example.com/a`, and `_canonicalize_url` is invariant under (a) the
letter case of the host, (b) denylisted tracking parameters (queries whose
filtered first-value pairs agree), (c) a single trailing slash on a
non-root path whose stripped form neither ends in `/amp` nor contains
`/amp/`, (d) an `/amp` path suffix when the remaining path does not itself
end in `/amp`, and (e) an `/amp/` path segment whose surroundings are free
of `amp`. -/
theorem C6_amended :
    (canonicalize_url "https://Example.com/a/amp/?utm_source=x" = "https://example.com/a" ∧
      canonicalize_url "https://example.com/a/" = "https://example.com/a") ∧
    (∀ u1 u2 : String,
      (urlparse u1).scheme = (urlparse u2).scheme →
      pyLower (urlparse u1).netloc = pyLower (urlparse u2).netloc →
      (urlparse u1).path = (urlparse u2).path →
      (urlparse u1).params = (urlparse u2).params →
      (urlparse u1).query = (urlparse u2).query →
      canonicalize_url u1 = canonicalize_url u2) ∧
    (∀ u1 u2 : String,
      (urlparse u1).scheme = (urlparse u2).scheme →
      (urlparse u1).netloc = (urlparse u2).netloc →
      (urlparse u1).path = (urlparse u2).path →
      (urlparse u1).params = (urlparse u2).params →
      (qsFirstL (parseQslL false (urlparse u1).query.data)).filter
          (fun p => decide (p.1 ∉ blockedParamsL)) =
        (qsFirstL (parseQslL false (urlparse u2).query.data)).filter
          (fun p => decide (p.1 ∉ blockedParamsL)) →
      canonicalize_url u1 = canonicalize_url u2) ∧
    (∀ u1 u2 : String,
      (urlparse u1).scheme = (urlparse u2).scheme →
      (urlparse u1).netloc = (urlparse u2).netloc →
      (urlparse u1).params = (urlparse u2).params →
      (urlparse u1).query = (urlparse u2).query →
      (urlparse u1).path.data = (urlparse u2).path.data ++ ['/'] →
      (urlparse u2).path.data ≠ [] →
      (urlparse u2).path.data ≠ ['/'] →
      sufL "/amp".data (urlparse u2).path.data = false →
      subL "/amp/".data (urlparse u2).path.data = false →
      canonicalize_url u1 = canonicalize_url u2) ∧
    (∀ u1 u2 : String,
      (urlparse u1).scheme = (urlparse u2).scheme →
      (urlparse u1).netloc = (urlparse u2).netloc →
      (urlparse u1).params = (urlparse u2).params →
      (urlparse u1).query = (urlparse u2).query →
      (urlparse u1).path.data = (urlparse u2).path.data ++ "/amp".data →
      sufL "/amp".data (urlparse u2).path.data = false →
      canonicalize_url u1 = canonicalize_url u2) ∧
    (∀ (u1 u2 : String) (a b : List Char),
      (urlparse u1).scheme = (urlparse u2).scheme →
      (urlparse u1).netloc = (urlparse u2).netloc →
      (urlparse u1).params = (urlparse u2).params →
      (urlparse u1).query = (urlparse u2).query →
      (urlparse u1).path.data = a ++ '/' :: 'a' :: 'm' :: 'p' :: '/' :: b →
      (urlparse u2).path.data = a ++ '/' :: b →
      subL "amp".data a = false →
      subL "amp".data b = false →
      canonicalize_url u1 = canonicalize_url u2) := by
  refine ⟨⟨rfl, rfl⟩, ?_, ?_, ?_, ?_, ?_⟩
  · intro u1 u2 hs hn hp hpar hq
    unfold canonicalize_url
    refine congrArg urlunparse ?_
    unfold canonParts
    rw [hs, hn, hp, hpar, hq]
  · intro u1 u2 hs hn hp hpar hq
    unfold canonicalize_url
    refine congrArg urlunparse ?_
    have hq2 : (⟨canonQueryL (urlparse u1).query.data⟩ : String) =
        ⟨canonQueryL (urlparse u2).query.data⟩ := by
      unfold canonQueryL
      rw [hq]
    unfold canonParts
    rw [hs, hn, hp, hpar, hq2]
  · intro u1 u2 hs hn hpar hq hp h0 h1 h2 h3
    unfold canonicalize_url
    refine congrArg urlunparse ?_
    have hp2 : (⟨canonPathL (urlparse u1).path.data⟩ : String) =
        ⟨canonPathL (urlparse u2).path.data⟩ := by
      rw [hp]
      exact congrArg String.mk (canonPath_trailing_slash h0 h1 h2 h3)
    unfold canonParts
    rw [hs, hn, hpar, hq, hp2]
  · intro u1 u2 hs hn hpar hq hp h2
    unfold canonicalize_url
    refine congrArg urlunparse ?_
    have hp2 : (⟨canonPathL (urlparse u1).path.data⟩ : String) =
        ⟨canonPathL (urlparse u2).path.data⟩ := by
      rw [hp]
      exact congrArg String.mk (canonPath_amp_suffix h2)
    unfold canonParts
    rw [hs, hn, hpar, hq, hp2]
  · intro u1 u2 a b hs hn hpar hq hp1 hp2 ha hb
    unfold canonicalize_url
    refine congrArg urlunparse ?_
    have hp3 : (⟨canonPathL (urlparse u1).path.data⟩ : String) =
        ⟨canonPathL (urlparse u2).path.data⟩ := by
      rw [hp1, hp2]
      exact congrArg String.mk (canonPath_amp_segment ha hb)
    unfold canonParts
    rw [hs, hn, hpar, hq, hp3]

/-- Witness for `C6_amended`: concrete instantiations of the host-case,
trailing-slash, `/amp`-suffix and `/amp/`-segment equivalences. -/
theorem C6_amended_witness :
    canonicalize_url "https://EXAMPLE.com/x?id=1" = canonicalize_url "https://example.com/x?id=1" ∧
    canonicalize_url "https://e.com/x/?utm_source=a&id=2" = canonicalize_url "https://e.com/x?id=2" ∧
    canonicalize_url "https://e.com/x/amp" = canonicalize_url "https://e.com/x" ∧
    canonicalize_url "https://e.com/s/amp/t" = canonicalize_url "https://e.com/s/t" := by
  refine ⟨?_, ?_, ?_, ?_⟩
  · exact C6_amended.2.1 _ _ rfl (by decide) rfl rfl rfl
  · exact (C6_amended.2.2.1 "https://e.com/x/?utm_source=a&id=2" "https://e.com/x/?id=2"
        rfl rfl rfl rfl (by decide)).trans
      (C6_amended.2.2.2.1 "https://e.com/x/?id=2" "https://e.com/x?id=2"
        rfl rfl rfl rfl (by decide) (by decide) (by decide) (by decide) (by decide))
  · exact C6_amended.2.2.2.2.1 _ _ rfl rfl rfl rfl (by decide) (by decide)
  · exact C6_amended.2.2.2.2.2 _ _ "/s".data "t".data rfl rfl rfl rfl (by decide) (by decide)
      (by decide) (by decide)

end AiNews
